import Mathlib

/-!
Verification of the request-normalization and URL/range resolution pipeline
of the `ecmwf-opendata` Rust client.

The Rust sources are shallowly embedded: strings are Lean `String`s
(operated on through their character lists), `u64` arithmetic is `Nat`
with explicit `% 2^64` where wrap-around matters, `i64`/`i32` values are
modelled as unbounded `Int` (no claim under study depends on signed
overflow), and fallible Rust functions returning `Result<T, Error>`
become `Except Error T`.  Network and JSON side effects (HTTP probes,
sidecar fetching) are passed in as oracle functions, so the pure
resolution pipeline is embedded faithfully.
-/

namespace Ecmwf

/-! ### Basic character/string utilities (models of the Rust `str` methods used) -/

/-- Decimal digit value of a character, if it is `0`..`9`. -/
def digitVal? (c : Char) : Option Nat :=
  if '0' ≤ c ∧ c ≤ '9' then some (c.toNat - 48) else none

def digitsToNatAux : List Char → Nat → Option Nat
  | [], acc => some acc
  | c :: cs, acc =>
    match digitVal? c with
    | some d => digitsToNatAux cs (acc * 10 + d)
    | none => none

/-- Parse a non-empty all-digit character list as a natural number. -/
def digitsToNat? : List Char → Option Nat
  | [] => none
  | cs => digitsToNatAux cs 0

/-- Model of Rust `str::parse::<i64>`: optional sign followed by one or
more decimal digits, rejecting values outside `[-2^63, 2^63 - 1]` with an
overflow parse error (`none`), exactly as `i64::from_str` does. -/
def parseIntChars : List Char → Option Int
  | '+' :: cs =>
    (digitsToNat? cs).bind (fun n =>
      if (n : Int) ≤ 2 ^ 63 - 1 then some (n : Int) else none)
  | '-' :: cs =>
    (digitsToNat? cs).bind (fun n =>
      if (n : Int) ≤ 2 ^ 63 then some (-(n : Int)) else none)
  | cs =>
    (digitsToNat? cs).bind (fun n =>
      if (n : Int) ≤ 2 ^ 63 - 1 then some (n : Int) else none)

def parseInt? (s : String) : Option Int := parseIntChars s.data

/-- Model of Rust `str::parse::<u32>`: optional `+` followed by digits,
rejecting values above `u32::MAX`. -/
def parseNatChars : List Char → Option Nat
  | '+' :: cs => (digitsToNat? cs).bind (fun n => if n ≤ 2 ^ 32 - 1 then some n else none)
  | cs => (digitsToNat? cs).bind (fun n => if n ≤ 2 ^ 32 - 1 then some n else none)

def parseNat? (s : String) : Option Nat := parseNatChars s.data

/-- Checked `i64` addition: `none` models the arithmetic overflow of
`cur += by`, on which the Rust program has no normal result (debug builds
panic; release builds wrap and, in the loop below, never terminate). -/
def i64add (x y : Int) : Option Int :=
  if -(2 ^ 63) ≤ x + y ∧ x + y ≤ 2 ^ 63 - 1 then some (x + y) else none

/-- Model of Rust `str::trim` (whitespace on both ends). -/
def trimChars (cs : List Char) : List Char :=
  ((cs.dropWhile Char.isWhitespace).reverse.dropWhile Char.isWhitespace).reverse

def trimStr (s : String) : String := ⟨trimChars s.data⟩

/-- Model of Rust `str::split(sep)`: splits at every separator, keeping
empty pieces (`"a//b" ↦ ["a", "", "b"]`, `"" ↦ [""]`). -/
def splitChar (sep : Char) : List Char → List (List Char)
  | [] => [[]]
  | c :: cs =>
    if c = sep then [] :: splitChar sep cs
    else
      match splitChar sep cs with
      | [] => [[c]]
      | t :: ts => (c :: t) :: ts

/-- `s.split('/').filter(|t| !t.is_empty())` as used throughout the client. -/
def slashTokens (s : String) : List String :=
  ((splitChar '/' s.data).map String.mk).filter (fun t => t ≠ "")

/-- Model of Rust `str::contains(pat)` for a literal pattern. -/
def listHasInfix (pat : List Char) : List Char → Bool
  | [] => pat.isEmpty
  | c :: t => pat.isPrefixOf (c :: t) || listHasInfix pat t

def strContains (s pat : String) : Bool := listHasInfix pat.data s.data

def strContainsChar (s : String) (c : Char) : Bool := s.data.contains c

/-- ASCII lowercase of one character (model of `u8::make_ascii_lowercase`). -/
def lowerChar (c : Char) : Char :=
  if 'A' ≤ c ∧ c ≤ 'Z' then Char.ofNat (c.toNat + 32) else c

def lowerStr (s : String) : String := ⟨s.data.map lowerChar⟩

/-- Model of Rust `str::eq_ignore_ascii_case`. -/
def eqIgnoreAsciiCase (a b : String) : Bool := lowerStr a = lowerStr b

def natToStrAux : Nat → Nat → List Char
  | 0, _ => []
  | fuel + 1, n =>
    if n < 10 then [Char.ofNat (48 + n)]
    else natToStrAux fuel (n / 10) ++ [Char.ofNat (48 + n % 10)]

/-- Decimal rendering of a natural number (fuel-based so that it reduces). -/
def natToStr (n : Nat) : String := ⟨natToStrAux (n + 1) n⟩

/-- Model of the `Display` rendering of Rust signed integers. -/
def intToStr (i : Int) : String :=
  if i < 0 then ⟨'-' :: natToStrAux ((-i).toNat + 1) (-i).toNat⟩
  else ⟨natToStrAux (i.toNat + 1) i.toNat⟩

/-- Zero-padded decimal of width `w` (model of `format!("{:02}")`, `%Y`, …). -/
def padNat (w n : Nat) : List Char :=
  let ds := natToStrAux (n + 1) n
  List.replicate (w - ds.length) '0' ++ ds

def padNat2 (n : Nat) : String := ⟨padNat 2 n⟩

/-- Model of Rust `str::replace(pat, rep)`: leftmost non-overlapping matches,
scanning left to right.  Fuel-based (fuel = length of the subject) so the
function reduces by `decide`; the patterns used in the client are non-empty. -/
def replaceAux (pat rep : List Char) : Nat → List Char → List Char
  | _, [] => []
  | 0, s => s
  | fuel + 1, c :: rest =>
    if pat.isPrefixOf (c :: rest) then
      rep ++ replaceAux pat rep fuel (List.drop (pat.length - 1) rest)
    else
      c :: replaceAux pat rep fuel rest

def replaceList (pat rep s : List Char) : List Char := replaceAux pat rep s.length s

def replaceStr (s pat rep : String) : String := ⟨replaceList pat.data rep.data s.data⟩

/-! ### Error type (`error.rs`) -/

inductive Error where
  | invalidRequest (msg : String)
  | http
  | io
  | json
  | urlErr
  | noMatchingIndex
  | cannotEstablishLatest
  /-- Not a variant of error.rs's enum: the embedding's bottom, marking an
  execution with no normal result (a Rust panic in debug builds, or
  release-build wrap-around that makes the numeric-range loop diverge). -/
  | panicked
  deriving DecidableEq, Repr

instance instDecEqExcept {ε α : Type} [DecidableEq ε] [DecidableEq α] :
    DecidableEq (Except ε α) := fun x y =>
  match x, y with
  | .ok a, .ok b =>
    match decEq a b with
    | isTrue h => isTrue (by rw [h])
    | isFalse h => isFalse (fun hh => h (by cases hh; rfl))
  | .error a, .error b =>
    match decEq a b with
    | isTrue h => isTrue (by rw [h])
    | isFalse h => isFalse (fun hh => h (by cases hh; rfl))
  | .ok _, .error _ => isFalse (fun hh => by cases hh)
  | .error _, .ok _ => isFalse (fun hh => by cases hh)

/-! ### `request.rs`: request values and numeric range grammar -/

inductive RequestValue where
  | str (s : String)
  | int (i : Int)
  | strList (xs : List String)
  | intList (xs : List Int)
  deriving DecidableEq, Repr

def RequestValue.asStrings : RequestValue → List String
  | .str s => [s]
  | .int i => [intToStr i]
  | .strList xs => xs
  | .intList xs => xs.map intToStr

/-- Rust `(a..=b)` collected to a list (empty when `b < a`). -/
def rangeToList (a b : Int) : List Int :=
  (List.range (b - a + 1).toNat).map (fun i => a + i)

/-- The `while cur <= end { push cur; cur += by }` loop of the
`a/to/b/by/c` branch over `i64`: `cur += by` is the checked `i64add`, and
`none` propagates the overflow (no normal result).  Fuel-based so that it
reduces; fuel only runs out inside the guard, so the loop's own exits are
unaffected. -/
def byListAux (b c : Int) : Nat → Int → Option (List Int)
  | 0, cur => if cur ≤ b then none else some []
  | fuel + 1, cur =>
    if cur ≤ b then
      match i64add cur c with
      | none => none
      | some cur' => (byListAux b c fuel cur').map (fun t => cur :: t)
    else some []

def byList (a b c : Int) : Option (List Int) := byListAux b c ((b - a).toNat + 1) a

/-- Embedding of `expand_numeric_syntax` (request.rs).  Tokenizes on `/`
dropping empty tokens, recognizes `a/to/b` and `a/to/b/by/c`, and otherwise
returns the input unchanged as a single-element list. -/
def expandNumericSyntax (s : String) : Except Error (List String) :=
  let tokens := slashTokens s
  match tokens with
  | [t0, t1, t2] =>
    if eqIgnoreAsciiCase t1 "to" then
      match parseInt? t0 with
      | none => .error (.invalidRequest "cannot parse range start")
      | some start =>
        match parseInt? t2 with
        | none => .error (.invalidRequest "cannot parse range end")
        | some stop =>
          if stop < start then .error (.invalidRequest "range end < start")
          else .ok ((rangeToList start stop).map intToStr)
    else .ok [s]
  | [t0, t1, t2, t3, t4] =>
    if eqIgnoreAsciiCase t1 "to" && eqIgnoreAsciiCase t3 "by" then
      match parseInt? t0 with
      | none => .error (.invalidRequest "cannot parse range start")
      | some start =>
        match parseInt? t2 with
        | none => .error (.invalidRequest "cannot parse range end")
        | some stop =>
          match parseInt? t4 with
          | none => .error (.invalidRequest "cannot parse range step")
          | some by_ =>
            if by_ ≤ 0 then .error (.invalidRequest "range step must be >0")
            else if stop < start then .error (.invalidRequest "range end < start")
            else
              match byList start stop by_ with
              | some xs => .ok (xs.map intToStr)
              | none => .error .panicked
    else .ok [s]
  | _ => .ok [s]

/-! ### `date.rs`: cycle-hour canonicalization and time expansion -/

/-- Embedding of `canonical_time_to_hour` (date.rs). -/
def canonicalTimeToHour (time : String) : Except Error Nat :=
  match parseInt? (trimStr time) with
  | none => .error (.invalidRequest "invalid time value")
  | some n =>
    if n = 0 ∨ n = 6 ∨ n = 12 ∨ n = 18 then .ok n.toNat
    else if n = 600 then .ok 6
    else if n = 1200 then .ok 12
    else if n = 1800 then .ok 18
    else .error (.invalidRequest "time must be one of 0,6,12,18")

/-- The filtering loop in `expand_time_value`: parse every element, keep
those whose value lies in `{0,6,12,18}` (re-rendered); `none` models the
parse error. -/
def timeFilterAux : List String → Option (List String)
  | [] => some []
  | s :: rest =>
    match parseInt? s with
    | none => none
    | some n =>
      match timeFilterAux rest with
      | none => none
      | some out =>
        if n = 0 ∨ n = 6 ∨ n = 12 ∨ n = 18 then some (intToStr n :: out) else some out

/-- Embedding of `expand_time_value` (date.rs). -/
def expandTimeValue (v : String) : Except Error (List String) := do
  let expanded ← expandNumericSyntax v
  if strContains v "/to/" then
    match timeFilterAux expanded with
    | none => .error (.invalidRequest "invalid time element")
    | some out => if out ≠ [] then pure out else pure expanded
  else
    pure expanded

/-! ### `url_builder.rs`: patterns, type aliasing, stream inference -/

def HOURLY_PATTERN : String :=
  "{url}/{yyyymmdd}/{H}z/{model}/{resol}/{stream}/{yyyymmddHHMMSS}-{step}h-{stream}-{type}.{ext}"

def MONTHLY_PATTERN : String :=
  "{url}/{yyyymmdd}/{H}z/{model}/{resol}/{stream}/{yyyymmddHHMMSS}-{fcmonth}m-{stream}-{type}.{ext}"

def extensionForType (typ : String) : String :=
  if typ = "tf" then "bufr" else "grib2"

/-- Model of Rust `str::split_once(sep)`. -/
def splitOnceChar (sep : Char) : List Char → Option (List Char × List Char)
  | [] => none
  | c :: cs =>
    if c = sep then some ([], cs)
    else (splitOnceChar sep cs).map (fun p => (c :: p.1, p.2))

/-- Embedding of `end_step` (date.rs): right-hand side of a `-`-separated
range, else the whole value, parsed as an integer. -/
def endStep (step : String) : Option Int :=
  match splitOnceChar '-' step.data with
  | some p => parseIntChars (trimChars p.2)
  | none => parseIntChars (trimChars step.data)

/-- Embedding of `user_to_url_value` (url_builder.rs). -/
def userToUrlValue (model key value : String) (allUrlTypeValues : List String) : String :=
  if key = "type" then
    if model = "aifs-ens" ∧ (value = "pf" ∨ value = "cf") then value
    else if value = "cf" ∨ value = "pf" then "ef"
    else if value = "em" ∨ value = "es" then "ep"
    else if value = "fcmean" then "fc"
    else value
  else if key = "stream" then
    if value = "mmsa" then "mmsf" else value
  else if key = "step" then
    if allUrlTypeValues.length = 1 ∧ allUrlTypeValues.headI = "ep" then
      match endStep value with
      | some e => if e ≤ 240 then "240" else "360"
      | none => value
    else value
  else value

/-- Embedding of `patch_stream` (url_builder.rs). -/
def patchStream (inferStreamKeyword : Bool) (model stream hour2d typ : String) : String :=
  if inferStreamKeyword = false ∨ model = "aifs-single" then stream
  else
    let s :=
      if (stream = "oper" ∧ (hour2d = "06" ∨ hour2d = "18")) then "scda"
      else if (stream = "wave" ∧ (hour2d = "06" ∨ hour2d = "18")) then "scwv"
      else stream
    if (s = "oper" ∨ s = "scda") ∧ (typ = "ef" ∨ typ = "ep") then "enfo"
    else if (s = "wave" ∨ s = "scwv") ∧ (typ = "ef" ∨ typ = "ep") then "waef"
    else s

/-! ### Datetimes (the fragment of `chrono` the client uses)

`DT` models a `DateTime<Utc>` whose minutes and seconds are zero, which is
the only kind the URL pipeline constructs (`with_ymd_and_hms(y, m, d, h, 0, 0)`). -/

structure DT where
  y : Int
  m : Nat
  d : Nat
  hour : Nat
  deriving DecidableEq, Repr

/-- chrono `%Y`: year zero-padded to four digits, sign in front. -/
def fmtYearChrono (y : Int) : List Char :=
  if y < 0 then '-' :: padNat 4 (-y).toNat else padNat 4 y.toNat

def DT.yyyymmdd (t : DT) : String :=
  ⟨fmtYearChrono t.y ++ padNat 2 t.m ++ padNat 2 t.d⟩

def DT.hh2 (t : DT) : String := padNat2 t.hour

def DT.yyyymmddhhmmss (t : DT) : String :=
  ⟨fmtYearChrono t.y ++ padNat 2 t.m ++ padNat 2 t.d ++ padNat 2 t.hour ++ ['0','0','0','0']⟩

/-- Timeline comparison key of a zero-minute UTC datetime (valid dates order
the same way lexicographically as on the chrono timeline). -/
def dtLeB (a b : DT) : Bool :=
  if a.y ≠ b.y then decide (a.y < b.y)
  else if a.m ≠ b.m then decide (a.m < b.m)
  else if a.d ≠ b.d then decide (a.d < b.d)
  else decide (a.hour ≤ b.hour)

/-- Embedding of `format_url` (url_builder.rs): sequential `str::replace`
passes over the pattern, in source order. -/
def formatUrl (pattern base : String) (dt : DT) (model resol stream typ : String)
    (step fcmonth : Option String) : String :=
  let u := replaceStr pattern "{url}" base
  let u := replaceStr u "{yyyymmdd}" dt.yyyymmdd
  let u := replaceStr u "{H}" dt.hh2
  let u := replaceStr u "{model}" model
  let u := replaceStr u "{resol}" resol
  let u := replaceStr u "{stream}" stream
  let u := replaceStr u "{type}" typ
  let u := replaceStr u "{yyyymmddHHMMSS}" dt.yyyymmddhhmmss
  let u := replaceStr u "{ext}" (extensionForType typ)
  let u := match step with
    | some st => replaceStr u "{step}" st
    | none => u
  match fcmonth with
  | some fm => replaceStr u "{fcmonth}" fm
  | none => u

/-! ### `merge_ranges` and the per-URL index planning (client.rs)

`u64` arithmetic is `Nat` with explicit `% 2 ^ 64` at the two spots where
wrap-around is reachable (`offset + length - 1` and `last.end + 1`). -/

/-- The inclusive range end `o + l - 1` as computed in `u64` arithmetic:
wrap-around semantics, so `endIncl 0 0 = 2 ^ 64 - 1`. -/
def endIncl (o l : Nat) : Nat := (o + l + (2 ^ 64 - 1)) % 2 ^ 64

/-- Stable insertion (later elements go after earlier ones that compare
`le` to them), modelling Rust's stable `sort_by` / `sort_by_key`. -/
def insertBy {α : Type} (le : α → α → Bool) (x : α) : List α → List α
  | [] => [x]
  | y :: ys => if le y x then y :: insertBy le x ys else x :: y :: ys

def sortBy {α : Type} (le : α → α → Bool) (xs : List α) : List α :=
  xs.foldl (fun acc x => insertBy le x acc) []

def sortByKey {α : Type} (key : α → Nat) : List α → List α :=
  sortBy (fun a b => decide (key a ≤ key b))

/-- Embedding of the merging loop body of `merge_ranges`: `cur` is the
mutable `out.last_mut()` element, already-emitted ranges are final. -/
def mergeLoop (cur : Nat × Nat) : List (Nat × Nat) → List (Nat × Nat)
  | [] => [cur]
  | (o, l) :: rest =>
    let s := o
    let e := endIncl o l
    if s ≤ (cur.2 + 1) % 2 ^ 64 then mergeLoop (cur.1, max cur.2 e) rest
    else cur :: mergeLoop (s, e) rest

/-- Embedding of `merge_ranges` (client.rs): convert `(offset, length)` to
inclusive `(start, end)`, sort by offset, coalesce adjacent/overlapping. -/
def mergeRanges (ms : List (Nat × Nat)) : List (Nat × Nat) :=
  match ms with
  | [] => []
  | [(o, l)] => [(o, endIncl o l)]
  | _ =>
    match sortByKey (fun p => p.1) ms with
    | [] => []
    | (o, l) :: rest => mergeLoop (o, endIncl o l) rest

/-! ### Index entries and the two matching/ordering disciplines -/

/-- One parsed line of a `.index` sidecar (the JSON decoding itself is the
external serde collaborator; entries arrive already parsed). -/
structure IndexEntry where
  fields : List (String × String)
  offset : Nat
  length : Nat
  deriving DecidableEq, Repr

def IndexEntry.get? (e : IndexEntry) (k : String) : Option String :=
  (e.fields.find? (fun p => p.1 = k)).map (fun p => p.2)

def lookupVals (forIndex : List (String × List String)) (k : String) : Option (List String) :=
  (forIndex.find? (fun p => p.1 = k)).map (fun p => p.2)

/-- The per-entry sort-key computation of the `preserve_request_order`
branch: `(keyword-position, value-position)` per ordered key; `ok none`
models `ok = false` (entry skipped), the error is the internal
`for_index`-missing-key error. -/
def entryKeyAux (forIndex : List (String × List String)) (e : IndexEntry) :
    Nat → List String → Except Error (Option (List (Nat × Nat)))
  | _, [] => .ok (some [])
  | i, k :: ks =>
    match e.get? k with
    | none => .ok none
    | some val =>
      match lookupVals forIndex k with
      | none => .error (.invalidRequest "internal for_index missing key")
      | some allowed =>
        match allowed.findIdx? (fun a => a = val) with
        | none => .ok none
        | some j =>
          match entryKeyAux forIndex e (i + 1) ks with
          | .error err => .error err
          | .ok none => .ok none
          | .ok (some rest) => .ok (some ((i, j) :: rest))

/-- The membership-only matching of the offset-order branch. -/
def entryMatches (forIndex : List (String × List String)) (e : IndexEntry) :
    List String → Except Error Bool
  | [] => .ok true
  | k :: ks =>
    match e.get? k with
    | none => .ok false
    | some val =>
      match lookupVals forIndex k with
      | none => .error (.invalidRequest "internal for_index missing key")
      | some allowed =>
        if allowed.any (fun a => a = val) then entryMatches forIndex e ks
        else .ok false

/-- Lexicographic `≤` on sort keys, modelling `Ord` on `Vec<(usize, usize)>`. -/
def lexLeB : List (Nat × Nat) → List (Nat × Nat) → Bool
  | [], _ => true
  | _ :: _, [] => false
  | a :: as1, b :: bs =>
    if a.1 < b.1 then true
    else if b.1 < a.1 then false
    else if a.2 < b.2 then true
    else if b.2 < a.2 then false
    else lexLeB as1 bs

def collectPreserve (forIndex : List (String × List String)) (orderedKeys : List String) :
    List IndexEntry → Except Error (List (List (Nat × Nat) × (Nat × Nat)))
  | [] => .ok []
  | e :: es =>
    match entryKeyAux forIndex e 0 orderedKeys with
    | .error err => .error err
    | .ok none => collectPreserve forIndex orderedKeys es
    | .ok (some key) =>
      match collectPreserve forIndex orderedKeys es with
      | .error err => .error err
      | .ok rest => .ok ((key, (e.offset, e.length)) :: rest)

def collectOffset (forIndex : List (String × List String)) (orderedKeys : List String) :
    List IndexEntry → Except Error (List (Nat × Nat))
  | [] => .ok []
  | e :: es =>
    match entryMatches forIndex e orderedKeys with
    | .error err => .error err
    | .ok false => collectOffset forIndex orderedKeys es
    | .ok true =>
      match collectOffset forIndex orderedKeys es with
      | .error err => .error err
      | .ok rest => .ok ((e.offset, e.length) :: rest)

/-- Per-URL range planning of `expand_urls_to_ranges`, preserve-order
branch: sort matches by the request-order key, then merge.  `ok none`
models the URL being silently dropped (zero matches). -/
def planPreserve (forIndex : List (String × List String)) (orderedKeys : List String)
    (entries : List IndexEntry) : Except Error (Option (List (Nat × Nat))) :=
  match collectPreserve forIndex orderedKeys entries with
  | .error err => .error err
  | .ok parts =>
    if parts = [] then .ok none
    else
      let sorted := sortBy (fun a b => lexLeB a.1 b.1) parts
      .ok (some (mergeRanges (sorted.map (fun p => p.2))))

/-- Per-URL range planning, default (offset-order) branch. -/
def planOffset (forIndex : List (String × List String)) (orderedKeys : List String)
    (entries : List IndexEntry) : Except Error (Option (List (Nat × Nat))) :=
  match collectOffset forIndex orderedKeys entries with
  | .error err => .error err
  | .ok ms =>
    if ms = [] then .ok none
    else .ok (some (mergeRanges (sortByKey (fun p => p.1) ms)))

/-! ### Calendar model (the fragment of `chrono::NaiveDate` the client uses) -/

def isLeapYear (y : Int) : Bool := y % 4 = 0 ∧ (y % 100 ≠ 0 ∨ y % 400 = 0)

def daysInMonth (y : Int) (m : Nat) : Nat :=
  if m = 2 then (if isLeapYear y then 29 else 28)
  else if m = 4 ∨ m = 6 ∨ m = 9 ∨ m = 11 then 30
  else 31

/-- Model of `NaiveDate::from_ymd_opt` succeeding. -/
def validYmd (y : Int) (m d : Nat) : Bool :=
  1 ≤ m ∧ m ≤ 12 ∧ 1 ≤ d ∧ d ≤ daysInMonth y m

structure NDate where
  y : Int
  m : Nat
  d : Nat
  deriving DecidableEq, Repr

/-- Days since 1970-01-01 of a civil date (standard proleptic-Gregorian
conversion, used to model `NaiveDate` ordering and day arithmetic). -/
def daysFromCivil (y : Int) (m : Nat) (d : Nat) : Int :=
  let y' : Int := if m ≤ 2 then y - 1 else y
  let era : Int := y'.fdiv 400
  let yoe : Int := y' - era * 400
  let mp : Int := if 2 < m then (m : Int) - 3 else (m : Int) + 9
  let doy : Int := (153 * mp + 2).fdiv 5 + (d : Int) - 1
  let doe : Int := yoe * 365 + yoe.fdiv 4 - yoe.fdiv 100 + doy
  era * 146097 + doe - 719468

/-- Civil date from days since 1970-01-01 (inverse conversion). -/
def civilFromDays (z0 : Int) : NDate :=
  let z : Int := z0 + 719468
  let era : Int := z.fdiv 146097
  let doe : Int := z - era * 146097
  let yoe : Int := (doe - doe.fdiv 1460 + doe.fdiv 36524 - doe.fdiv 146096).fdiv 365
  let y : Int := yoe + era * 400
  let doy : Int := doe - (365 * yoe + yoe.fdiv 4 - yoe.fdiv 100)
  let mp : Int := (5 * doy + 2).fdiv 153
  let d : Int := doy - (153 * mp + 2).fdiv 5 + 1
  let m : Int := if mp < 10 then mp + 3 else mp - 9
  ⟨if mp < 10 then y else y + 1, m.toNat, d.toNat⟩

def NDate.dayNum (t : NDate) : Int := daysFromCivil t.y t.m t.d

def NDate.addDays (t : NDate) (n : Int) : NDate := civilFromDays (t.dayNum + n)

/-- Rust `format!("{:04}", y)` for an `i32` (width includes the sign). -/
def fmtI32Width4 (y : Int) : List Char :=
  if y < 0 then
    let ds := natToStrAux ((-y).toNat + 1) (-y).toNat
    '-' :: (List.replicate (3 - ds.length) '0' ++ ds)
  else padNat 4 y.toNat

/-- Embedding of `yyyymmdd` (date.rs). -/
def yyyymmddOf (t : NDate) : String :=
  ⟨fmtI32Width4 t.y ++ padNat 2 t.m ++ padNat 2 t.d⟩

/-- Model of `NaiveDate::parse_from_str(s, "%Y-%m-%d")` (chrono is an
external collaborator; modelled as 4-digit year, 2-digit month/day). -/
def parseDashDate (cs : List Char) : Option NDate :=
  match splitChar '-' cs with
  | [ys, ms2, ds2] =>
    if ys.length = 4 ∧ ms2.length = 2 ∧ ds2.length = 2 then
      match digitsToNat? ys, digitsToNat? ms2, digitsToNat? ds2 with
      | some y, some m, some d => if validYmd y m d then some ⟨y, m, d⟩ else none
      | _, _, _ => none
    else none
  | _ => none

/-- Model of `NaiveDateTime::parse_from_str(s, "%Y-%m-%d %H:%M:%S")`,
returning the date and the hour. -/
def parseDashDateTime (cs : List Char) : Option (NDate × Nat) :=
  match splitOnceChar ' ' cs with
  | none => none
  | some p =>
    match parseDashDate p.1 with
    | none => none
    | some nd =>
      match splitChar ':' p.2 with
      | [hs, mins, ss] =>
        if hs.length = 2 ∧ mins.length = 2 ∧ ss.length = 2 then
          match digitsToNat? hs, digitsToNat? mins, digitsToNat? ss with
          | some h, some mi, some s =>
            if h ≤ 23 ∧ mi ≤ 59 ∧ s ≤ 59 then some (nd, h) else none
          | _, _, _ => none
        else none
      | _ => none

/-- Embedding of `parse_date_like` (date.rs). -/
def parseDateLike (s : String) (now : NDate) : Except Error (NDate × Option Nat) :=
  let trimmed := trimChars s.data
  let intBranch : Option (Except Error (NDate × Option Nat)) :=
    match parseIntChars trimmed with
    | none => none
    | some n =>
      if n ≤ 0 then some (.ok (now.addDays n, none))
      else if trimmed.length = 8 then
        some (do
          let y ← match parseIntChars (trimmed.take 4) with
            | some y => pure y
            | none => throw (Error.invalidRequest "invalid YYYYMMDD date")
          let m ← match parseNatChars ((trimmed.drop 4).take 2) with
            | some m => pure m
            | none => throw (Error.invalidRequest "invalid YYYYMMDD date")
          let d ← match parseNatChars (trimmed.drop 6) with
            | some d => pure d
            | none => throw (Error.invalidRequest "invalid YYYYMMDD date")
          if validYmd y m d then pure (NDate.mk y m d, none)
          else throw (Error.invalidRequest "invalid date components"))
      else none
  match intBranch with
  | some r => r
  | none =>
    match parseDashDate trimmed with
    | some nd => .ok (nd, none)
    | none =>
      match parseDashDateTime trimmed with
      | some p => .ok (p.1, some p.2)
      | none => .error (.invalidRequest "unsupported date format")

/-- The `while cur <= end { push; cur += days(by) }` loop of
`expand_date_value`, fuel-based. -/
def dateLoop (stop : NDate) (byDays : Int) : Nat → NDate → List String
  | 0, _ => []
  | fuel + 1, cur =>
    if cur.dayNum ≤ stop.dayNum then
      yyyymmddOf cur :: dateLoop stop byDays fuel (cur.addDays byDays)
    else []

/-- Embedding of `expand_date_value` (date.rs).  Note the range check
tokenizes with `split('/').collect()` (keeping empty tokens), unlike
`expand_numeric_syntax`. -/
def expandDateValue (v : String) (now : NDate) : Except Error (List String) :=
  let tokensAll := (splitChar '/' v.data).map String.mk
  if strContains v "/to/" then
    match tokensAll with
    | [t0, t1, t2] =>
      if eqIgnoreAsciiCase t1 "to" then do
        let s ← parseDateLike t0 now
        let e ← parseDateLike t2 now
        pure (dateLoop e.1 1 ((e.1.dayNum - s.1.dayNum).toNat + 1) s.1)
      else do
        let d ← parseDateLike v now
        pure [yyyymmddOf d.1]
    | [t0, t1, t2, t3, t4] =>
      if eqIgnoreAsciiCase t1 "to" ∧ eqIgnoreAsciiCase t3 "by" then do
        let s ← parseDateLike t0 now
        let e ← parseDateLike t2 now
        let by_ ← match parseInt? t4 with
          | some b => pure b
          | none => throw (Error.invalidRequest "invalid date range step")
        if by_ ≤ 0 then throw (Error.invalidRequest "date range step must be >0")
        else pure (dateLoop e.1 by_ ((e.1.dayNum - s.1.dayNum).toNat + 1) s.1)
      else do
        let d ← parseDateLike v now
        pure [yyyymmddOf d.1]
    | _ => do
      let d ← parseDateLike v now
      pure [yyyymmddOf d.1]
  else do
    let d ← parseDateLike v now
    pure [yyyymmddOf d.1]

/-- Embedding of `full_datetime_from_date_time` (date.rs). -/
def fullDatetimeFromDateTime (dateStr : String) (timeHour : Nat) : Except Error DT := do
  if dateStr.data.length ≠ 8 then
    throw (Error.invalidRequest "date must be YYYYMMDD")
  else
    let y ← match parseIntChars (dateStr.data.take 4) with
      | some y => pure y
      | none => throw (Error.invalidRequest "invalid date")
    let m ← match parseNatChars ((dateStr.data.drop 4).take 2) with
      | some m => pure m
      | none => throw (Error.invalidRequest "invalid date")
    let d ← match parseNatChars (dateStr.data.drop 6) with
      | some d => pure d
      | none => throw (Error.invalidRequest "invalid date")
    if validYmd y m d then
      if timeHour ≤ 23 then pure (DT.mk y m d timeHour)
      else throw (Error.invalidRequest "invalid datetime")
    else throw (Error.invalidRequest "invalid date")

/-! ### Ordered string maps (model of `BTreeMap` with `String` keys) -/

def charListLtB : List Char → List Char → Bool
  | [], [] => false
  | [], _ :: _ => true
  | _ :: _, [] => false
  | a :: as1, b :: bs =>
    if a.toNat < b.toNat then true
    else if b.toNat < a.toNat then false
    else charListLtB as1 bs

def strLtB (a b : String) : Bool := charListLtB a.data b.data

/-- `BTreeMap::insert` on a key-sorted association list (replaces existing). -/
def mapInsert {β : Type} (k : String) (v : β) : List (String × β) → List (String × β)
  | [] => [(k, v)]
  | (k', v') :: rest =>
    if strLtB k k' then (k, v) :: (k', v') :: rest
    else if k = k' then (k, v) :: rest
    else (k', v') :: mapInsert k v rest

def mapGet? {β : Type} (m : List (String × β)) (k : String) : Option β :=
  (m.find? (fun e => e.1 = k)).map (fun e => e.2)

def mapContains {β : Type} (m : List (String × β)) (k : String) : Bool :=
  m.any (fun e => e.1 = k)

/-- `entry(k).or_insert(v)`. -/
def mapEntryOr {β : Type} (m : List (String × β)) (k : String) (v : β) : List (String × β) :=
  if mapContains m k then m else mapInsert k v m

abbrev Params := List (String × RequestValue)

abbrev StrMap := List (String × List String)

def sgetD (m : StrMap) (k : String) : List String := (mapGet? m k).getD []

/-- `entry(k).or_default().extend(xs)`. -/
def entryExtend (m : StrMap) (k : String) (xs : List String) : StrMap :=
  match mapGet? m k with
  | some cur => mapInsert k (cur ++ xs) m
  | none => mapInsert k xs m

/-- `unique_preserve` (client.rs): distinct values, first occurrence wins. -/
def upAux (seen : List String) : List String → List String
  | [] => []
  | x :: xs => if seen.contains x then upAux seen xs else x :: upAux (x :: seen) xs

def uniquePreserve (xs : List String) : List String := upAux [] xs

/-! ### Client configuration, network oracles, and the resolution result -/

/-- The client state relevant to URL/range resolution: `ClientOptions`
fields plus the resolved `base_url` and the optional SAS token. -/
structure ClientCfg where
  baseUrl : String
  model : String
  resol : String
  beta : Bool
  preserveRequestOrder : Bool
  inferStreamKeyword : Bool
  sasToken : Option String
  deriving DecidableEq, Repr

/-- Wall-clock instant (`Utc::now()`), split into civil date and time. -/
structure NowDT where
  date : NDate
  hour : Nat
  minute : Nat
  second : Nat
  deriving DecidableEq, Repr

/-- The side-effecting collaborators of the pipeline, passed as oracles:
`probe` models `probe_exists` (HEAD with ranged-GET fallback), `fetchIndex`
models fetching a `.index` sidecar and serde-decoding its lines. -/
structure NetEnv where
  now : NowDT
  probe : String → Except Error Bool
  fetchIndex : String → Except Error (List IndexEntry)

/-- Embedding of the `Result` struct of client.rs (the resolved plan). -/
structure ResolvedResult where
  urls : List String
  target : String
  datetime : DT
  forUrls : StrMap
  forIndex : StrMap
  sizeBytes : Nat
  deriving DecidableEq, Repr

def URL_COMPONENTS : List String :=
  ["date", "time", "model", "resol", "stream", "type", "step", "fcmonth"]

def INDEX_COMPONENTS : List String :=
  ["param", "type", "step", "fcmonth", "number", "levelist"]

/-- Embedding of `apply_sas_to_url` (client.rs). -/
def applySasToUrl (cfg : ClientCfg) (url : String) : String :=
  match cfg.sasToken with
  | none => url
  | some token =>
    if strContains url "sig=" then url
    else if strContainsChar url '?' then url ++ "&" ++ token
    else url ++ "?" ++ token

/-! ### `get_urls` step by step -/

/-- The defaults block at the top of `get_urls` (client.rs 292-311);
returns the computed `model` together with the updated parameters. -/
def applyDefaults (cfg : ClientCfg) (params : Params) : String × Params :=
  let model := match mapGet? params "model" with
    | some v => (v.asStrings.head?).getD cfg.model
    | none => cfg.model
  let params :=
    if model = "aifs-ens" ∧ mapContains params "stream" = false then
      mapInsert "stream" (.str "enfo") params
    else params
  let params := mapEntryOr params "model" (.str model)
  let params := mapEntryOr params "resol" (.str cfg.resol)
  let params := mapEntryOr params "type" (.str "fc")
  let params := mapEntryOr params "stream" (.str "oper")
  let params := mapEntryOr params "step" (.int 0)
  (model, params)

/-- The `for_urls["type"]` pre-seeding (client.rs 333-346). -/
def seedType (model : String) (params : Params) : StrMap :=
  let typValuesUser := match mapGet? params "type" with
    | some v => v.asStrings
    | none => ["fc"]
  let forUrlsType := typValuesUser.map (fun tv => userToUrlValue model "type" tv [])
  let forUrlsType := if forUrlsType = [] then ["fc"] else forUrlsType
  mapInsert "type" (uniquePreserve forUrlsType) []

/-- Slash-separated list handling for a request value (client.rs 350-359). -/
def valueStrings (v : RequestValue) : List String :=
  match v.asStrings with
  | [x] => if strContainsChar x '/' then slashTokens x else [x]
  | xs => xs

def expandAll (f : String → Except Error (List String)) : List String → Except Error (List String)
  | [] => .ok []
  | x :: xs => do
    let a ← f x
    let b ← expandAll f xs
    pure (a ++ b)

/-- Domain expansion per keyword (client.rs 361-384). -/
def expandFor (k : String) (values : List String) (nowDate : NDate) :
    Except Error (List String) :=
  if k = "date" then expandAll (fun x => expandDateValue x nowDate) values
  else if k = "time" then expandAll expandTimeValue values
  else if k = "step" ∨ k = "fcmonth" ∨ k = "number" ∨ k = "levelist" then
    expandAll expandNumericSyntax values
  else .ok values

/-- The main keyword loop of `get_urls` (client.rs 349-415), iterating the
parameter map in key order and accumulating `for_urls` / `for_index`. -/
def processParams (model : String) (nowDate : NDate) :
    List (String × RequestValue) → StrMap → StrMap → Except Error (StrMap × StrMap)
  | [], fu, fi => .ok (fu, fi)
  | (k, v) :: rest, fu, fi => do
    let values := valueStrings v
    let expanded ← expandFor k values nowDate
    let fu :=
      if URL_COMPONENTS.contains k then
        let urlT := sgetD fu "type"
        entryExtend fu k (expanded.map (fun x => userToUrlValue model k x urlT))
      else fu
    let fi :=
      if INDEX_COMPONENTS.contains k then
        let mapped :=
          if k = "type" then
            expanded.flatMap (fun x => if x = "ef" then ["cf", "pf"] else [x])
          else expanded
        entryExtend fi k mapped
      else fi
    processParams model nowDate rest fu fi

def canonTimes : List String → Except Error (List String)
  | [] => .ok []
  | t :: ts => do
    let h ← canonicalTimeToHour t
    let rest ← canonTimes ts
    pure (padNat2 h :: rest)

/-- Time canonicalization (client.rs 417-425): every `for_urls["time"]`
entry goes through `canonical_time_to_hour` and is re-rendered `{:02}`. -/
def canonicalizeTime (fu : StrMap) : Except Error StrMap :=
  match mapGet? fu "time" with
  | none => .ok fu
  | some times => do
    let out ← canonTimes times
    pure (mapInsert "time" (uniquePreserve out) fu)

/-- Deduplication and stream/type lowercasing (client.rs 427-439). -/
def finalizeMap (m : StrMap) : StrMap :=
  m.map (fun e =>
    let vals := uniquePreserve e.2
    (e.1, if e.1 = "stream" ∨ e.1 = "type" then vals.map lowerStr else vals))

/-- Embedding of `fix_0p4_beta` (client.rs 587-593). -/
def fix0p4Beta (cfg : ClientCfg) (url : String) : String :=
  if cfg.resol = "0p4-beta" then replaceStr url "/ifs/" "/" else url

/-- The per-keyword value lists feeding the Cartesian URL enumeration. -/
structure EnumVals where
  dateVals : List String
  timeVals : List String
  modelVals : List String
  resolVals : List String
  streamVals : List String
  typeVals : List String
  stepVals : List String
  fcmonthVals : List String
  deriving DecidableEq, Repr

/-- URLs produced for one base datetime, before `fix_0p4_beta`
(client.rs 494-555 inner loops). -/
def rawUrlsForDT (cfg : ClientCfg) (ev : EnumVals) (dt : DT) : List String :=
  ev.modelVals.flatMap (fun m =>
    ev.resolVals.flatMap (fun r =>
      ev.streamVals.flatMap (fun s =>
        ev.typeVals.flatMap (fun ty =>
          let hour2d := dt.hh2
          let patched := patchStream cfg.inferStreamKeyword m s hour2d ty
          let isMonthly := s = "mmsa"
          let pattern := if isMonthly then MONTHLY_PATTERN else HOURLY_PATTERN
          let resol := if cfg.beta then r ++ "/experimental" else r
          if isMonthly then
            ev.fcmonthVals.map (fun fm =>
              formatUrl pattern cfg.baseUrl dt m resol patched ty none (some fm))
          else
            ev.stepVals.map (fun st =>
              formatUrl pattern cfg.baseUrl dt m resol patched ty (some st) none)))))

/-- URLs produced for one base datetime, `fix_0p4_beta` applied as pushed. -/
def urlsForDT (cfg : ClientCfg) (ev : EnumVals) (dt : DT) : List String :=
  (rawUrlsForDT cfg ev dt).map (fix0p4Beta cfg)

def enumTimes (cfg : ClientCfg) (ev : EnumVals) (d : String) :
    List String → Except Error (List String × List DT)
  | [] => .ok ([], [])
  | t :: ts => do
    let hour ← match parseNat? t with
      | some h => pure h
      | none => throw (Error.invalidRequest "invalid canonical time hour")
    let dt ← fullDatetimeFromDateTime d hour
    let rest ← enumTimes cfg ev d ts
    pure (urlsForDT cfg ev dt ++ rest.1, dt :: rest.2)

def enumDates (cfg : ClientCfg) (ev : EnumVals) :
    List String → Except Error (List String × List DT)
  | [] => .ok ([], [])
  | d :: ds => do
    let a ← enumTimes cfg ev d ev.timeVals
    let b ← enumDates cfg ev ds
    pure (a.1 ++ b.1, a.2 ++ b.2)

/-- The URL enumeration (client.rs 455-557): Cartesian product over
(date × time × model × resol × stream × type) with per-pattern step or
fcmonth instantiation; also records every base datetime. -/
def enumAll (cfg : ClientCfg) (ev : EnumVals) : Except Error (List String × List DT) :=
  enumDates cfg ev ev.dateVals

/-- `BTreeSet::iter().next()`: the minimum datetime. -/
def minDT? : List DT → Option DT
  | [] => none
  | d :: ds =>
    match minDT? ds with
    | none => some d
    | some a => if dtLeB d a then some d else some a

def encodeRanges (rs : List (Nat × Nat)) : String :=
  String.intercalate ";" (rs.map (fun r => natToStr r.1 ++ "-" ++ natToStr r.2))

def indexUrlOf (u : String) : String :=
  let base := match splitOnceChar '.' u.data.reverse with
    | some p => p.2.reverse
    | none => u.data
  ⟨base ++ ".index".data⟩

/-- Embedding of `expand_urls_to_ranges` (client.rs 638-789). -/
def expandUrlsToRanges (cfg : ClientCfg) (net : NetEnv) (urls : List String)
    (forIndex : StrMap) : Except Error (List String) := do
  let orderedKeys := INDEX_COMPONENTS.filter (fun k => mapContains forIndex k)
  let out ← go orderedKeys urls
  if out = [] then throw Error.noMatchingIndex else pure out
where
  go (orderedKeys : List String) : List String → Except Error (List String)
    | [] => .ok []
    | url :: rest => do
      let indexUrl := applySasToUrl cfg (indexUrlOf url)
      let entries ← net.fetchIndex indexUrl
      let restOut ← go orderedKeys rest
      if orderedKeys = [] then pure (url :: restOut)
      else if cfg.preserveRequestOrder then
        match planPreserve forIndex orderedKeys entries with
        | .error err => throw err
        | .ok none => pure restOut
        | .ok (some ranges) => pure ((url ++ "|" ++ encodeRanges ranges) :: restOut)
      else
        match planOffset forIndex orderedKeys entries with
        | .error err => throw err
        | .ok none => pure restOut
        | .ok (some ranges) => pure ((url ++ "|" ++ encodeRanges ranges) :: restOut)

/-- Map normalization (client.rs 327-453): the keyword loop, time
canonicalization, dedup/lowercasing, the `tf` index disable, and the
late `time = 18` default; returns the final `for_urls` / `for_index`. -/
def normalizeMaps (model : String) (nowDate : NDate) (params : Params) :
    Except Error (StrMap × StrMap) := do
  let (fu1, fi1) ← processParams model nowDate params (seedType model params) []
  let fu2 ← canonicalizeTime fu1
  let fu3 := finalizeMap fu2
  let fi2 := finalizeMap fi1
  let userType := match mapGet? params "type" with
    | some v => (v.asStrings.head?).getD "fc"
    | none => "fc"
  let fi3 := if userType = "tf" then [] else fi2
  let fu4 := if mapContains fu3 "time" then fu3 else mapInsert "time" ["18"] fu3
  pure (fu4, fi3)

/-- URL enumeration, plan assembly, and optional index expansion
(client.rs 455-584). -/
def assemblePlan (cfg : ClientCfg) (net : NetEnv) (model : String) (params : Params)
    (useIndex : Bool) (target : Option String) (fu4 fi3 : StrMap) :
    Except Error ResolvedResult := do
  let dateVals ← match mapGet? fu4 "date" with
    | some xs => pure xs
    | none => throw (Error.invalidRequest "date missing after normalization")
  let timeVals ← match mapGet? fu4 "time" with
    | some xs => pure xs
    | none => throw (Error.invalidRequest "time missing after normalization")
  let ev : EnumVals :=
    { dateVals := dateVals
      timeVals := timeVals
      modelVals := (mapGet? fu4 "model").getD [model]
      resolVals := (mapGet? fu4 "resol").getD [cfg.resol]
      streamVals := (mapGet? fu4 "stream").getD ["oper"]
      typeVals := (mapGet? fu4 "type").getD ["fc"]
      stepVals := (mapGet? fu4 "step").getD ["0"]
      fcmonthVals := (mapGet? fu4 "fcmonth").getD ["1"] }
  let ud ← enumAll cfg ev
  let urls := uniquePreserve ud.1
  let dt ← match minDT? ud.2 with
    | some dt => pure dt
    | none => throw (Error.invalidRequest "no datetime")
  let targetPath := match target with
    | some s => s
    | none =>
      match mapGet? params "target" with
      | some v => (v.asStrings.head?).getD "data.grib2"
      | none => "data.grib2"
  let res : ResolvedResult :=
    { urls := urls, target := targetPath, datetime := dt, forUrls := fu4
      forIndex := fi3, sizeBytes := 0 }
  if useIndex ∧ res.forIndex ≠ [] then do
    let urls2 ← expandUrlsToRanges cfg net res.urls res.forIndex
    pure { res with urls := urls2 }
  else pure res

/-- The body of `get_urls` after the missing-date branch (client.rs
327-584); callers guarantee `date` is present. -/
def getUrlsCore (cfg : ClientCfg) (net : NetEnv) (params0 : Params) (useIndex : Bool)
    (target : Option String) : Except Error ResolvedResult := do
  let mp := applyDefaults cfg params0
  let model := mp.1
  let params := mp.2
  let (fu4, fi3) ← normalizeMaps model net.now.date params
  assemblePlan cfg net model params useIndex target fu4 fi3

/-! ### The latest-cycle prober (client.rs `latest_inner`) -/

/-- A probing candidate: a civil date with a cycle hour (minutes/seconds 0). -/
structure Cand where
  date : NDate
  hour : Nat
  deriving DecidableEq, Repr

def Cand.hourKey (c : Cand) : Int := c.date.dayNum * 24 + (c.hour : Int)

def Cand.subHours (c : Cand) (h : Int) : Cand :=
  let th := c.hourKey - h
  ⟨civilFromDays (th.fdiv 24), (th.emod 24).toNat⟩

def Cand.toDT (c : Cand) : DT := ⟨c.date.y, c.date.m, c.date.d, c.hour⟩

/-- `candidate.format("%Y%m%d")`. -/
def Cand.yyyymmdd (c : Cand) : String :=
  ⟨fmtYearChrono c.date.y ++ padNat 2 c.date.m ++ padNat 2 c.date.d⟩

/-- Second-resolution key of `Utc::now()` for the `dt > now` comparison. -/
def NowDT.secKey (n : NowDT) : Int :=
  n.date.dayNum * 86400 + (n.hour : Int) * 3600 + (n.minute : Int) * 60 + (n.second : Int)

def Cand.secKey (c : Cand) : Int := c.date.dayNum * 86400 + (c.hour : Int) * 3600

def probeAll (cfg : ClientCfg) (net : NetEnv) : List String → Except Error Bool
  | [] => .ok true
  | u :: us => do
    let b ← net.probe (applySasToUrl cfg u)
    if b then probeAll cfg net us else pure false

/-- The backward search loop of `latest_inner`.  The loop steps by `delta`
hours from the start until `candidate ≤ stop`; 21 fuel steps strictly
exceed the worst case (120h / 6h = 20 iterations), so fuel exhaustion
coincides with the loop's own `CannotEstablishLatest` exit. -/
def latestLoop (cfg : ClientCfg) (net : NetEnv) (hasTime : Bool) (timeHour : Nat)
    (delta : Int) (stop : Cand) :
    Nat → Cand → Params → Except Error Cand
  | 0, _, _ => throw Error.cannotEstablishLatest
  | fuel + 1, candidate, params =>
    if candidate.hourKey ≤ stop.hourKey then throw Error.cannotEstablishLatest
    else do
      let params := mapInsert "date" (.str candidate.yyyymmdd) params
      let probeHour := if hasTime then timeHour else candidate.hour
      let params := mapInsert "time" (.int (probeHour : Int)) params
      let res ← getUrlsCore cfg net params false none
      let ok0 := res.urls ≠ []
      let allOk ← probeAll cfg net res.urls
      if ok0 ∧ allOk then pure candidate
      else
        latestLoop cfg net hasTime timeHour delta stop fuel (candidate.subHours delta) params

/-- Embedding of `latest_inner` (client.rs 160-241). -/
def latestInner (cfg : ClientCfg) (net : NetEnv) (request : Params) :
    Except Error Cand := do
  let params := request
  let hasTime := mapContains params "time"
  let delta : Int := if hasTime then 24 else 6
  let timeHour ← match mapGet? params "time" with
    | some tv => canonicalTimeToHour ((tv.asStrings.head?).getD "18")
    | none => pure 18
  let candidate ←
    if hasTime then do
      let d := net.now.date
      if validYmd d.y d.m d.d ∧ timeHour ≤ 23 then
        let c : Cand := ⟨d, timeHour⟩
        if c.secKey > net.now.secKey then pure (c.subHours 24) else pure c
      else throw (Error.invalidRequest "invalid start datetime")
    else do
      let hour := net.now.hour / 6 * 6
      let d := net.now.date
      if validYmd d.y d.m d.d ∧ hour ≤ 23 then
        pure (Cand.mk d hour)
      else throw (Error.invalidRequest "invalid start datetime")
  let stop := candidate.subHours 120
  latestLoop cfg net hasTime timeHour delta stop 21 candidate params

/-- Embedding of `get_urls` (client.rs 281-585): defaults, the
missing-date latest resolution, then the core pipeline. -/
def getUrls (cfg : ClientCfg) (net : NetEnv) (request : Params) (useIndex : Bool)
    (target : Option String) : Except Error ResolvedResult :=
  let mp := applyDefaults cfg request
  let params := mp.2
  if mapContains params "date" then getUrlsCore cfg net params useIndex target
  else do
    let latest ← latestInner cfg net params
    let params := mapInsert "date" (.str latest.yyyymmdd) params
    let params :=
      if mapContains params "time" then params
      else mapInsert "time" (.int (latest.hour : Int)) params
    getUrlsCore cfg net params useIndex target

/-- Syntactic test for the two range shapes of `expand_numeric_syntax`
(the conditions of its two recognized token shapes). -/
def matchesRangeShapeB (s : String) : Bool :=
  match slashTokens s with
  | [_, t1, _] => eqIgnoreAsciiCase t1 "to"
  | [_, t1, _, t3, _] => eqIgnoreAsciiCase t1 "to" && eqIgnoreAsciiCase t3 "by"
  | _ => false

/-- The characters of the literal patterns of `fix_0p4_beta`. -/
def ifsPat : List Char := ['/', 'i', 'f', 's', '/']

def ifsRep : List Char := ['/']

def ifsAdj : List Char := ['/', 'i', 'f', 's', '/', 'i', 'f', 's', '/']

/-! ## Helper lemmas -/

theorem canonicalTimeToHour_range (t : String) (h : Nat)
    (hk : canonicalTimeToHour t = .ok h) : h = 0 ∨ h = 6 ∨ h = 12 ∨ h = 18 := by
  unfold canonicalTimeToHour at hk
  split at hk
  case h_1 => exact Except.noConfusion hk
  case h_2 n =>
    split_ifs at hk with h1 h2 h3 h4
    all_goals simp only [Except.ok.injEq] at hk
    all_goals omega

theorem timeFilterAux_mem (ts : List String) (out : List String)
    (hf : timeFilterAux ts = some out) :
    ∀ x ∈ out, x ∈ ["0", "6", "12", "18"] := by
  induction ts generalizing out with
  | nil =>
    simp only [timeFilterAux, Option.some.injEq] at hf
    subst hf
    intro x hx
    exact absurd hx (List.not_mem_nil x)
  | cons s rest ih =>
    unfold timeFilterAux at hf
    split at hf
    case h_1 => exact Option.noConfusion hf
    case h_2 n hp =>
      split at hf
      case h_1 => exact Option.noConfusion hf
      case h_2 out' hr =>
        split_ifs at hf with hn
        · simp only [Option.some.injEq] at hf
          subst hf
          intro x hx
          rcases List.mem_cons.mp hx with rfl | hx'
          · rcases hn with rfl | rfl | rfl | rfl <;> decide
          · exact ih out' hr x hx'
        · simp only [Option.some.injEq] at hf
          subst hf
          exact ih out' hr

/-! ## Claim theorems -/

/-- C4: `canonical_time_to_hour` succeeds exactly on the encodings
`0|6|12|18` and `600|1200|1800` in integer or digit-string form (including
`"00"` and `"06"`), returning the corresponding cycle hour in
`{0,6,12,18}`, and fails with an invalid-request error on every other
input string (characterized through the integer parse of the trimmed
input, which is what "integer or digit-string form" denotes). -/
theorem canonicalTimeToHour_domain (s : String) :
    (canonicalTimeToHour "0" = .ok 0 ∧ canonicalTimeToHour "6" = .ok 6 ∧
      canonicalTimeToHour "12" = .ok 12 ∧ canonicalTimeToHour "18" = .ok 18 ∧
      canonicalTimeToHour "600" = .ok 6 ∧ canonicalTimeToHour "1200" = .ok 12 ∧
      canonicalTimeToHour "1800" = .ok 18 ∧ canonicalTimeToHour "00" = .ok 0 ∧
      canonicalTimeToHour "06" = .ok 6) ∧
    (∀ h, canonicalTimeToHour s = .ok h → h = 0 ∨ h = 6 ∨ h = 12 ∨ h = 18) ∧
    (∀ n, parseInt? (trimStr s) = some n →
      ((n = 0 ∨ n = 6 ∨ n = 12 ∨ n = 18) → canonicalTimeToHour s = .ok n.toNat) ∧
      (n = 600 → canonicalTimeToHour s = .ok 6) ∧
      (n = 1200 → canonicalTimeToHour s = .ok 12) ∧
      (n = 1800 → canonicalTimeToHour s = .ok 18) ∧
      (n ≠ 0 → n ≠ 6 → n ≠ 12 → n ≠ 18 → n ≠ 600 → n ≠ 1200 → n ≠ 1800 →
        canonicalTimeToHour s = .error (.invalidRequest "time must be one of 0,6,12,18"))) ∧
    (parseInt? (trimStr s) = none →
      canonicalTimeToHour s = .error (.invalidRequest "invalid time value")) := by
  refine ⟨by decide, fun h hk => canonicalTimeToHour_range s h hk, ?_, ?_⟩
  · intro n hp
    refine ⟨?_, ?_, ?_, ?_, ?_⟩
    · intro hmem
      simp only [canonicalTimeToHour, hp]
      rw [if_pos hmem]
    · rintro rfl
      simp only [canonicalTimeToHour, hp]
      decide
    · rintro rfl
      simp only [canonicalTimeToHour, hp]
      decide
    · rintro rfl
      simp only [canonicalTimeToHour, hp]
      decide
    · intro h0 h6 h12 h18 h600 h1200 h1800
      simp only [canonicalTimeToHour, hp]
      rw [if_neg (by tauto), if_neg h600, if_neg h1200, if_neg h1800]
  · intro hp
    simp only [canonicalTimeToHour, hp]

/-- Witness for C4 at concrete inputs. -/
theorem canonicalTimeToHour_domain_witness :
    canonicalTimeToHour "7" = .error (.invalidRequest "time must be one of 0,6,12,18") :=
  ((canonicalTimeToHour_domain "7").2.2.1 7 (by decide)).2.2.2.2
    (by decide) (by decide) (by decide) (by decide) (by decide) (by decide) (by decide)

/-- C8: with stream inference on and model not `aifs-single`,
`patch_stream` maps `(oper, 06|18, fc)` to `scda`, and for type `ef`/`ep`
remaps `oper|scda` to `enfo` and `wave|scwv` to `waef` at any hour; with
inference off or model `aifs-single` the stream is returned unchanged. -/
theorem patchStream_rules :
    (∀ (infer : Bool) (m s h t : String), (infer = false ∨ m = "aifs-single") →
      patchStream infer m s h t = s) ∧
    (∀ (m h : String), m ≠ "aifs-single" → (h = "06" ∨ h = "18") →
      patchStream true m "oper" h "fc" = "scda") ∧
    (∀ (m h s t : String), m ≠ "aifs-single" → (t = "ef" ∨ t = "ep") →
      ((s = "oper" ∨ s = "scda") → patchStream true m s h t = "enfo") ∧
      ((s = "wave" ∨ s = "scwv") → patchStream true m s h t = "waef")) := by
  refine ⟨?_, ?_, ?_⟩
  · intro infer m s h t hgate
    unfold patchStream
    rw [if_pos hgate]
  · intro m h hm hh
    have hg : ¬(true = false ∨ m = "aifs-single") := by simp [hm]
    unfold patchStream
    rw [if_neg hg]
    rcases hh with rfl | rfl <;> decide
  · intro m h s t hm ht
    have hg : ¬(true = false ∨ m = "aifs-single") := by simp [hm]
    constructor
    · rintro (rfl | rfl)
      · unfold patchStream
        rw [if_neg hg]
        dsimp only
        by_cases hh : h = "06" ∨ h = "18"
        · rw [if_pos (show ("oper" : String) = "oper" ∧ (h = "06" ∨ h = "18") from ⟨rfl, hh⟩),
            if_pos (show (("scda" : String) = "oper" ∨ ("scda" : String) = "scda") ∧
              (t = "ef" ∨ t = "ep") from ⟨Or.inr rfl, ht⟩)]
        · rw [if_neg (show ¬(("oper" : String) = "oper" ∧ (h = "06" ∨ h = "18")) from
              fun hc => hh hc.2),
            if_neg (show ¬(("oper" : String) = "wave" ∧ (h = "06" ∨ h = "18")) from
              fun hc => absurd hc.1 (by decide)),
            if_pos (show (("oper" : String) = "oper" ∨ ("oper" : String) = "scda") ∧
              (t = "ef" ∨ t = "ep") from ⟨Or.inl rfl, ht⟩)]
      · unfold patchStream
        rw [if_neg hg]
        dsimp only
        rw [if_neg (show ¬(("scda" : String) = "oper" ∧ (h = "06" ∨ h = "18")) from
            fun hc => absurd hc.1 (by decide)),
          if_neg (show ¬(("scda" : String) = "wave" ∧ (h = "06" ∨ h = "18")) from
            fun hc => absurd hc.1 (by decide)),
          if_pos (show (("scda" : String) = "oper" ∨ ("scda" : String) = "scda") ∧
            (t = "ef" ∨ t = "ep") from ⟨Or.inr rfl, ht⟩)]
    · rintro (rfl | rfl)
      · unfold patchStream
        rw [if_neg hg]
        dsimp only
        by_cases hh : h = "06" ∨ h = "18"
        · rw [if_neg (show ¬(("wave" : String) = "oper" ∧ (h = "06" ∨ h = "18")) from
              fun hc => absurd hc.1 (by decide)),
            if_pos (show ("wave" : String) = "wave" ∧ (h = "06" ∨ h = "18") from ⟨rfl, hh⟩),
            if_neg (show ¬((("scwv" : String) = "oper" ∨ ("scwv" : String) = "scda") ∧
              (t = "ef" ∨ t = "ep")) from
              fun hc => by rcases hc.1 with he | he <;> exact absurd he (by decide)),
            if_pos (show (("scwv" : String) = "wave" ∨ ("scwv" : String) = "scwv") ∧
              (t = "ef" ∨ t = "ep") from ⟨Or.inr rfl, ht⟩)]
        · rw [if_neg (show ¬(("wave" : String) = "oper" ∧ (h = "06" ∨ h = "18")) from
              fun hc => absurd hc.1 (by decide)),
            if_neg (show ¬(("wave" : String) = "wave" ∧ (h = "06" ∨ h = "18")) from
              fun hc => hh hc.2),
            if_neg (show ¬((("wave" : String) = "oper" ∨ ("wave" : String) = "scda") ∧
              (t = "ef" ∨ t = "ep")) from
              fun hc => by rcases hc.1 with he | he <;> exact absurd he (by decide)),
            if_pos (show (("wave" : String) = "wave" ∨ ("wave" : String) = "scwv") ∧
              (t = "ef" ∨ t = "ep") from ⟨Or.inl rfl, ht⟩)]
      · unfold patchStream
        rw [if_neg hg]
        dsimp only
        rw [if_neg (show ¬(("scwv" : String) = "oper" ∧ (h = "06" ∨ h = "18")) from
            fun hc => absurd hc.1 (by decide)),
          if_neg (show ¬(("scwv" : String) = "wave" ∧ (h = "06" ∨ h = "18")) from
            fun hc => absurd hc.1 (by decide)),
          if_neg (show ¬((("scwv" : String) = "oper" ∨ ("scwv" : String) = "scda") ∧
            (t = "ef" ∨ t = "ep")) from
            fun hc => by rcases hc.1 with he | he <;> exact absurd he (by decide)),
          if_pos (show (("scwv" : String) = "wave" ∨ ("scwv" : String) = "scwv") ∧
            (t = "ef" ∨ t = "ep") from ⟨Or.inr rfl, ht⟩)]

/-- Witness for C8 at concrete inputs. -/
theorem patchStream_rules_witness : patchStream true "ifs" "oper" "06" "fc" = "scda" :=
  patchStream_rules.2.1 "ifs" "06" (by decide) (Or.inl rfl)

/-- C3 counterexample: the slash-containing input `"1/2/3"` matches
neither range form, yet `expand_numeric_syntax` succeeds (returns the
input as a one-element list) instead of failing. -/
theorem expandNumeric_slash_counterexample :
    strContainsChar "1/2/3" '/' = true ∧ matchesRangeShapeB "1/2/3" = false ∧
      expandNumericSyntax "1/2/3" = .ok ["1/2/3"] := by decide

/-- C3 amended: on every slash-containing input matching neither of the
two range forms, `expand_numeric_syntax` succeeds and returns the input
unchanged as a single-element list (it does not fail). -/
theorem expandNumeric_slash_fallthrough (s : String)
    (hslash : strContainsChar s '/' = true)
    (hshape : matchesRangeShapeB s = false) :
    expandNumericSyntax s = .ok [s] := by
  rcases htok : slashTokens s with _ | ⟨t0, _ | ⟨t1, _ | ⟨t2, _ | ⟨t3, _ | ⟨t4, _ | ts⟩⟩⟩⟩⟩ <;>
    simp only [matchesRangeShapeB, htok] at hshape <;>
    simp only [expandNumericSyntax, htok] <;>
    first
      | rfl
      | rw [if_neg (by simp [hshape])]

/-- Witness for C3's amended statement at a concrete input. -/
theorem expandNumeric_slash_fallthrough_witness :
    expandNumericSyntax "a/b" = .ok ["a/b"] :=
  expandNumeric_slash_fallthrough "a/b" (by decide) (by decide)

/-- C5 counterexample: `"1/to/3"` contains `/to/`, but because the
`{0,6,12,18}` filter eliminates every expanded element, the raw expansion
is returned unchanged — its elements are not in `{0,6,12,18}`. -/
theorem expandTimeValue_counterexample :
    strContains "1/to/3" "/to/" = true ∧
      expandTimeValue "1/to/3" = .ok ["1", "2", "3"] ∧
      ¬("1" ∈ ["0", "6", "12", "18"]) := by decide

/-- C5 amended: for `/to/` inputs the result is the expansion filtered to
`{0,6,12,18}` only when that filter leaves something; when the filter
eliminates every element the raw numeric expansion is returned unchanged.
Inputs without `/to/` always return the raw expansion. -/
theorem expandTimeValue_filter (v : String) (xs : List String)
    (h : expandTimeValue v = .ok xs) :
    (strContains v "/to/" = false → expandNumericSyntax v = .ok xs) ∧
    (strContains v "/to/" = true →
      (∀ x ∈ xs, x ∈ ["0", "6", "12", "18"]) ∨
      (expandNumericSyntax v = .ok xs ∧ timeFilterAux xs = some [])) := by
  unfold expandTimeValue at h
  cases he : expandNumericSyntax v with
  | error e =>
    rw [he] at h
    exact Except.noConfusion h
  | ok expanded =>
    rw [he] at h
    simp only [bind, Except.bind] at h
    constructor
    · intro hto
      rw [hto] at h
      simp only [Bool.false_eq_true, if_false, pure, Except.pure, Except.ok.injEq] at h
      rw [h]
    · intro hto
      rw [hto, if_pos rfl] at h
      split at h
      case h_1 => exact Except.noConfusion h
      case h_2 out heq =>
        split_ifs at h with hne
        · simp only [pure, Except.pure, Except.ok.injEq] at h
          subst h
          exact Or.inl (timeFilterAux_mem _ _ heq)
        · push_neg at hne
          subst hne
          simp only [pure, Except.pure, Except.ok.injEq] at h
          subst h
          exact Or.inr ⟨rfl, heq⟩

/-- Witness for C5's amended statement at concrete inputs. -/
theorem expandTimeValue_filter_witness :
    expandNumericSyntax "12" = .ok ["12"] :=
  (expandTimeValue_filter "12" ["12"] (by decide)).1 (by decide)

/-- C1: with `preserve_request_order` enabled, on the spec's own example
(index lines A(offset 2000, param msl), B(offset 1000, param 2t), request
`param=[msl,2t]`) the emitted ranges come out in file-offset order
`[B, A]`, not the requested order `[A, B]`: the preserve-order sort is
nullified because `merge_ranges` re-sorts its input by offset. -/
theorem planPreserve_requestOrder_bug :
    planPreserve [("param", ["msl", "2t"])] ["param"]
        [⟨[("param", "msl")], 2000, 100⟩, ⟨[("param", "2t")], 1000, 100⟩] =
      .ok (some [(1000, 1099), (2000, 2099)]) ∧
    ([(1000, 1099), (2000, 2099)] : List (Nat × Nat)) ≠ [(2000, 2099), (1000, 1099)] := by
  decide

/-- C10: the inclusive range end is `offset + length - 1` in `u64`
arithmetic with no guard for `length = 0`: under the precondition that
every length is at least 1 (and the sum is representable) the subtraction
is exact, while an index entry with `_length = 0` (and offset 0) reaches
the wrap-around — and nothing between index decoding and `merge_ranges`
filters such an entry out. -/
theorem mergeRanges_end_u64 :
    (∀ o l : Nat, 1 ≤ l → o + l ≤ 2 ^ 64 → endIncl o l = o + l - 1) ∧
    endIncl 0 0 = 2 ^ 64 - 1 ∧
    planOffset [("param", ["msl"])] ["param"] [⟨[("param", "msl")], 0, 0⟩] =
      .ok (some [(0, 2 ^ 64 - 1)]) := by
  refine ⟨?_, by decide, by decide⟩
  intro o l h1 h2
  unfold endIncl
  have hsum : o + l + (2 ^ 64 - 1) = (o + l - 1) + 2 ^ 64 := by omega
  rw [hsum, Nat.add_mod_right]
  exact Nat.mod_eq_of_lt (by omega)

/-- Witness for C10's universally quantified part. -/
theorem mergeRanges_end_u64_witness : endIncl 5 3 = 7 :=
  mergeRanges_end_u64.1 5 3 (by decide) (by decide)

theorem endIncl_eq (o l : Nat) (h1 : 1 ≤ o + l) (h2 : o + l ≤ 2 ^ 64) :
    endIncl o l = o + l - 1 := by
  unfold endIncl
  have hsum : o + l + (2 ^ 64 - 1) = (o + l - 1) + 2 ^ 64 := by omega
  rw [hsum, Nat.add_mod_right]
  exact Nat.mod_eq_of_lt (by omega)

theorem mem_insertBy {α : Type} (le : α → α → Bool) (x : α) (l : List α) (a : α) :
    a ∈ insertBy le x l ↔ a = x ∨ a ∈ l := by
  induction l with
  | nil => simp [insertBy]
  | cons y ys ih =>
    unfold insertBy
    by_cases hle : le y x
    · rw [if_pos hle]
      simp only [List.mem_cons, ih]
      tauto
    · rw [if_neg hle]
      simp only [List.mem_cons]

theorem mem_sortBy {α : Type} (le : α → α → Bool) (xs : List α) (a : α) :
    a ∈ sortBy le xs ↔ a ∈ xs := by
  suffices h : ∀ acc : List α,
      a ∈ xs.foldl (fun acc x => insertBy le x acc) acc ↔ a ∈ acc ∨ a ∈ xs by
    simpa [sortBy] using h []
  induction xs with
  | nil => intro acc; simp
  | cons x xs ih =>
    intro acc
    simp only [List.foldl_cons, ih, mem_insertBy, List.mem_cons]
    tauto

theorem mergeLoop_head (cur : Nat × Nat) (rest : List (Nat × Nat)) :
    ∃ e tl, mergeLoop cur rest = (cur.1, e) :: tl := by
  induction rest generalizing cur with
  | nil => exact ⟨cur.2, [], by simp [mergeLoop]⟩
  | cons q rest ih =>
    obtain ⟨o, l⟩ := q
    unfold mergeLoop
    dsimp only
    by_cases hc : o ≤ (cur.2 + 1) % 2 ^ 64
    · rw [if_pos hc]
      exact ih (cur.1, max cur.2 (endIncl o l))
    · rw [if_neg hc]
      exact ⟨cur.2, mergeLoop (o, endIncl o l) rest, by simp⟩

theorem mergeLoop_good (rest : List (Nat × Nat)) : ∀ cur : Nat × Nat,
    cur.1 ≤ cur.2 → cur.2 ≤ 2 ^ 64 - 2 →
    (∀ p ∈ rest, 1 ≤ p.2 ∧ p.1 + p.2 ≤ 2 ^ 64 - 1) →
    List.Chain' (fun a b => a.2 + 1 < b.1) (mergeLoop cur rest) ∧
    (∀ p ∈ mergeLoop cur rest, p.1 ≤ p.2) := by
  induction rest with
  | nil =>
    intro cur h1 h2 _
    refine ⟨by simp [mergeLoop], ?_⟩
    intro p hp
    simp only [mergeLoop, List.mem_singleton] at hp
    exact hp ▸ h1
  | cons q rest ih =>
    intro cur h1 h2 hb
    obtain ⟨o, l⟩ := q
    have hq := hb (o, l) (List.mem_cons_self _ _)
    have hrest := fun p hp => hb p (List.mem_cons_of_mem _ hp)
    have hol : endIncl o l = o + l - 1 := endIncl_eq o l (by omega) (by omega)
    have hmod : (cur.2 + 1) % 2 ^ 64 = cur.2 + 1 := Nat.mod_eq_of_lt (by omega)
    unfold mergeLoop
    dsimp only
    by_cases hc : o ≤ (cur.2 + 1) % 2 ^ 64
    · rw [if_pos hc]
      exact ih (cur.1, max cur.2 (endIncl o l))
        (le_trans h1 (le_max_left _ _)) (Nat.max_le.mpr ⟨h2, by omega⟩) hrest
    · rw [if_neg hc]
      have hgap : cur.2 + 1 < o := by omega
      obtain ⟨hchain, hmem⟩ := ih (o, endIncl o l) (by omega) (by omega) hrest
      obtain ⟨e, tl, hml⟩ := mergeLoop_head (o, endIncl o l) rest
      constructor
      · rw [List.chain'_cons']
        refine ⟨?_, hchain⟩
        intro y hy
        rw [hml] at hy
        simp only [List.head?_cons, Option.mem_def, Option.some.injEq] at hy
        subst hy
        exact hgap
      · intro p hp
        rcases List.mem_cons.mp hp with rfl | hp'
        · exact h1
        · exact hmem p hp'

theorem chain_gap_lt (l : List (Nat × Nat))
    (hg : List.Chain' (fun a b => a.2 + 1 < b.1) l)
    (hm : ∀ p ∈ l, p.1 ≤ p.2) :
    List.Chain' (fun a b => a.1 < b.1) l := by
  induction l with
  | nil => simp
  | cons a t ih =>
    rw [List.chain'_cons'] at hg ⊢
    obtain ⟨hhead, htail⟩ := hg
    refine ⟨?_, ih htail (fun p hp => hm p (List.mem_cons_of_mem _ hp))⟩
    intro y hy
    have h1 := hhead y hy
    have h2 := hm a (List.mem_cons_self _ _)
    omega

/-- C2: for every non-empty list of `(offset, length)` pairs with every
length at least 1 (and representable sum), `merge_ranges` — which converts
each pair to the inclusive range `[offset, offset+length-1]`, sorts by
start, and coalesces exactly when `next.start ≤ prev.end + 1` — produces
ranges that never overlap or touch (`prev.end + 1 < next.start`), with
well-formed ranges and strictly increasing starts. -/
theorem mergeRanges_invariants (xs : List (Nat × Nat)) (hne : xs ≠ [])
    (hb : ∀ p ∈ xs, 1 ≤ p.2 ∧ p.1 + p.2 ≤ 2 ^ 64 - 1) :
    List.Chain' (fun a b => a.2 + 1 < b.1) (mergeRanges xs) ∧
    (∀ p ∈ mergeRanges xs, p.1 ≤ p.2) ∧
    List.Chain' (fun a b => a.1 < b.1) (mergeRanges xs) := by
  have key : List.Chain' (fun a b => a.2 + 1 < b.1) (mergeRanges xs) ∧
      (∀ p ∈ mergeRanges xs, p.1 ≤ p.2) := by
    unfold mergeRanges
    split
    · exact absurd rfl hne
    case h_2 o l =>
      have hq := hb (o, l) (List.mem_singleton.mpr rfl)
      have hol : endIncl o l = o + l - 1 := endIncl_eq o l (by omega) (by omega)
      refine ⟨by simp, ?_⟩
      intro p hp
      simp only [List.mem_singleton] at hp
      subst hp
      simp only [hol]
      omega
    case h_3 =>
      cases hs : sortByKey (fun p => p.1) xs with
      | nil => exact ⟨by simp, by simp⟩
      | cons q rest =>
        obtain ⟨o, l⟩ := q
        have hmemq : (o, l) ∈ xs := by
          have : (o, l) ∈ sortByKey (fun p => p.1) xs := by
            rw [hs]; exact List.mem_cons_self _ _
          exact (mem_sortBy _ xs _).mp this
        have hq := hb (o, l) hmemq
        have hol : endIncl o l = o + l - 1 := endIncl_eq o l (by omega) (by omega)
        refine mergeLoop_good rest (o, endIncl o l) (by simp [hol]; omega)
          (by simp [hol]; omega) ?_
        intro p hp
        have : p ∈ sortByKey (fun p => p.1) xs := by
          rw [hs]; exact List.mem_cons_of_mem _ hp
        exact hb p ((mem_sortBy _ xs _).mp this)
  exact ⟨key.1, key.2, chain_gap_lt _ key.1 key.2⟩

/-- Witness for C2 at a concrete input. -/
theorem mergeRanges_invariants_witness :
    List.Chain' (fun a b => a.2 + 1 < b.1) (mergeRanges [(5, 3), (9, 2), (100, 1)]) :=
  (mergeRanges_invariants [(5, 3), (9, 2), (100, 1)] (by decide) (by decide)).1

theorem parseIntChars_bounds (cs : List Char) (n : Int)
    (h : parseIntChars cs = some n) : -(2 ^ 63) ≤ n ∧ n ≤ 2 ^ 63 - 1 := by
  unfold parseIntChars at h
  split at h
  · cases hd : digitsToNat? _ with
    | none =>
      rw [hd] at h
      exact Option.noConfusion h
    | some m =>
      rw [hd] at h
      simp only [Option.bind] at h
      split_ifs at h with hb
      simp only [Option.some.injEq] at h
      omega
  · cases hd : digitsToNat? _ with
    | none =>
      rw [hd] at h
      exact Option.noConfusion h
    | some m =>
      rw [hd] at h
      simp only [Option.bind] at h
      split_ifs at h with hb
      simp only [Option.some.injEq] at h
      omega
  · cases hd : digitsToNat? _ with
    | none =>
      rw [hd] at h
      exact Option.noConfusion h
    | some m =>
      rw [hd] at h
      simp only [Option.bind] at h
      split_ifs at h with hb
      simp only [Option.some.injEq] at h
      omega

theorem parseInt?_bounds (s : String) (n : Int) (h : parseInt? s = some n) :
    -(2 ^ 63) ≤ n ∧ n ≤ 2 ^ 63 - 1 := parseIntChars_bounds s.data n h

theorem byListAux_stop (b c : Int) (fuel : Nat) (cur : Int) (h : ¬cur ≤ b) :
    byListAux b c fuel cur = some [] := by
  cases fuel with
  | zero =>
    unfold byListAux
    rw [if_neg h]
  | succ n =>
    unfold byListAux
    rw [if_neg h]

theorem byListAux_eq (b c : Int) (hc : 0 < c) :
    ∀ (fuel : Nat) (cur : Int), (b - cur).toNat < fuel → -(2 ^ 63) ≤ cur →
    (cur ≤ b → cur + (((b - cur).toNat / c.toNat + 1 : Nat) : Int) * c ≤ 2 ^ 63 - 1) →
    byListAux b c fuel cur =
      some ((List.range (if cur ≤ b then (b - cur).toNat / c.toNat + 1 else 0)).map
        (fun i : Nat => cur + c * (i : Int))) := by
  intro fuel
  induction fuel with
  | zero => intro cur h _ _; exact absurd h (Nat.not_lt_zero _)
  | succ fuel ih =>
    intro cur h hlo hok
    unfold byListAux
    by_cases hcb : cur ≤ b
    · rw [if_pos hcb, if_pos hcb]
      have hE := hok hcb
      have hKnn : (0 : Int) ≤ (((b - cur).toNat / c.toNat : Nat) : Int) * c :=
        mul_nonneg (Int.ofNat_nonneg _) (le_of_lt hc)
      have hEexp : cur + (((b - cur).toNat / c.toNat : Nat) : Int) * c + c ≤ 2 ^ 63 - 1 := by
        simp only [Nat.cast_add, Nat.cast_one] at hE
        linarith
      have hadd : i64add cur c = some (cur + c) := by
        unfold i64add
        rw [if_pos ⟨by omega, by linarith⟩]
      rw [hadd]
      simp only []
      rw [List.range_succ_eq_map]
      simp only [List.map_cons, List.map_map]
      by_cases hcc : cur + c ≤ b
      · have hk : (b - (cur + c)).toNat / c.toNat + 1 = (b - cur).toNat / c.toNat := by
          have h1 : (b - cur).toNat = (b - (cur + c)).toNat + c.toNat := by omega
          rw [h1, Nat.add_div_right _ (by omega)]
        have hok' : cur + c ≤ b →
            cur + c + (((b - (cur + c)).toNat / c.toNat + 1 : Nat) : Int) * c ≤ 2 ^ 63 - 1 := by
          intro _
          rw [hk]
          simp only [Nat.cast_add, Nat.cast_one] at hE
          linarith
        rw [ih (cur + c) (by omega) (by linarith) hok', if_pos hcc, hk]
        simp only [Option.map_some', Option.some.injEq]
        congr 1
        · norm_num
        · apply List.map_congr_left
          intro i _
          simp only [Function.comp_apply, Nat.succ_eq_add_one]
          push_cast
          ring
      · have hk : (b - cur).toNat / c.toNat = 0 := Nat.div_eq_of_lt (by omega)
        rw [byListAux_stop b c fuel (cur + c) hcc, hk]
        simp
    · rw [if_neg hcb, if_neg hcb]
      simp

theorem byListAux_overflow (b c : Int) (hc : 0 < c) :
    ∀ (fuel : Nat) (cur : Int), (b - cur).toNat < fuel → cur ≤ b →
    ¬(cur + (((b - cur).toNat / c.toNat + 1 : Nat) : Int) * c ≤ 2 ^ 63 - 1) →
    byListAux b c fuel cur = none := by
  intro fuel
  induction fuel with
  | zero => intro cur h _ _; exact absurd h (Nat.not_lt_zero _)
  | succ fuel ih =>
    intro cur h hcb hov
    unfold byListAux
    rw [if_pos hcb]
    cases hadd : i64add cur c with
    | none => rfl
    | some cur' =>
      unfold i64add at hadd
      split_ifs at hadd with hb
      simp only [Option.some.injEq] at hadd
      subst hadd
      dsimp only
      by_cases hcc : cur + c ≤ b
      · have hk : (b - (cur + c)).toNat / c.toNat + 1 = (b - cur).toNat / c.toNat := by
          have h1 : (b - cur).toNat = (b - (cur + c)).toNat + c.toNat := by omega
          rw [h1, Nat.add_div_right _ (by omega)]
        have hov' :
            ¬(cur + c + (((b - (cur + c)).toNat / c.toNat + 1 : Nat) : Int) * c ≤ 2 ^ 63 - 1) := by
          intro hcon
          apply hov
          rw [hk] at hcon
          simp only [Nat.cast_add, Nat.cast_one]
          linarith
        rw [ih (cur + c) (by omega) hcc hov']
        rfl
      · exfalso
        apply hov
        have hk : (b - cur).toNat / c.toNat = 0 := Nat.div_eq_of_lt (by omega)
        rw [hk]
        simp only [Nat.zero_add, Nat.cast_one, one_mul]
        linarith [hb.2]

theorem byList_eq (a b c : Int) (hc : 0 < c) (hab : a ≤ b) (hlo : -(2 ^ 63) ≤ a)
    (hok : a + (((b - a).toNat / c.toNat + 1 : Nat) : Int) * c ≤ 2 ^ 63 - 1) :
    byList a b c =
      some ((List.range ((b - a).toNat / c.toNat + 1)).map (fun i : Nat => a + c * (i : Int))) := by
  unfold byList
  rw [byListAux_eq b c hc _ a (by omega) hlo (fun _ => hok), if_pos hab]

theorem byList_overflow (a b c : Int) (hc : 0 < c) (hab : a ≤ b)
    (hov : ¬(a + (((b - a).toNat / c.toNat + 1 : Nat) : Int) * c ≤ 2 ^ 63 - 1)) :
    byList a b c = none := by
  unfold byList
  exact byListAux_overflow b c hc _ a (by omega) hab hov

/-- C7: for i64 values `a <= b`, `c > 0` with the arithmetic staying in
i64 range, `expand_numeric_syntax` on an input tokenizing as `a/to/b/by/c`
succeeds with exactly `(b-a).toNat/c.toNat + 1` elements, all congruent to
`a` modulo `c`, within `[a, b]`, strictly increasing; it fails with
InvalidRequest when `b < a` or `c <= 0`; and when the final `cur += by`
step of the loop leaves i64 range the program has no normal result
(debug panic / release divergence), modeled as `Error.panicked`. -/
theorem expandNumeric_by_form (v sa tb sb tby sc : String) (a b c : Int)
    (htok : slashTokens v = [sa, tb, sb, tby, sc])
    (hto : eqIgnoreAsciiCase tb "to" = true) (hby : eqIgnoreAsciiCase tby "by" = true)
    (hpa : parseInt? sa = some a) (hpb : parseInt? sb = some b)
    (hpc : parseInt? sc = some c) :
    (a <= b -> 0 < c ->
      a + (((b - a).toNat / c.toNat + 1 : Nat) : Int) * c ≤ 2 ^ 63 - 1 →
      ∃ g : List Int, expandNumericSyntax v = .ok (g.map intToStr) ∧
        g.length = (b - a).toNat / c.toNat + 1 ∧
        List.Chain' (fun x y => x < y) g ∧
        ∀ x ∈ g, a ≤ x ∧ x ≤ b ∧ c ∣ (x - a)) ∧
    ((b < a ∨ c ≤ 0) → ∃ msg, expandNumericSyntax v = .error (.invalidRequest msg)) ∧
    (a ≤ b → 0 < c →
      ¬(a + (((b - a).toNat / c.toNat + 1 : Nat) : Int) * c ≤ 2 ^ 63 - 1) →
      expandNumericSyntax v = .error .panicked) := by
  have hred : expandNumericSyntax v =
      (if c ≤ 0 then .error (.invalidRequest "range step must be >0")
       else if b < a then .error (.invalidRequest "range end < start")
       else match byList a b c with
            | some xs => .ok (xs.map intToStr)
            | none => .error .panicked) := by
    simp only [expandNumericSyntax, htok, hto, hby, Bool.and_self, if_pos, hpa, hpb, hpc]
  refine ⟨?_, ?_, ?_⟩
  · intro hab hc hok
    have hlo : -(2 ^ 63) ≤ a := (parseInt?_bounds sa a hpa).1
    refine ⟨(List.range ((b - a).toNat / c.toNat + 1)).map (fun i : Nat => a + c * (i : Int)),
      ?_, ?_, ?_, ?_⟩
    · rw [hred, if_neg (by omega), if_neg (by omega), byList_eq a b c hc hab hlo hok]
    · simp
    · refine List.Pairwise.chain' ?_
      refine List.Pairwise.map _ ?_ (List.pairwise_lt_range _)
      intro i j hij
      have : (i : Int) < (j : Int) := by exact_mod_cast hij
      nlinarith
    · intro x hx
      simp only [List.mem_map, List.mem_range] at hx
      obtain ⟨i, hi, rfl⟩ := hx
      have hik : i ≤ (b - a).toNat / c.toNat := by omega
      have hci : (0 : Int) ≤ c * (i : Int) := by positivity
      refine ⟨by omega, ?_, ⟨(i : Int), by ring⟩⟩
      have h1 : c * (i : Int) ≤ c * ((b - a).toNat / c.toNat : Nat) := by
        apply mul_le_mul_of_nonneg_left _ (le_of_lt hc)
        exact_mod_cast hik
      have h2 : (c.toNat : Int) * (((b - a).toNat / c.toNat : Nat) : Int) ≤ ((b - a).toNat : Int) := by
        exact_mod_cast Nat.mul_comm ((b - a).toNat / c.toNat) c.toNat ▸ Nat.div_mul_le_self (b - a).toNat c.toNat
      have hcc : ((c.toNat : Nat) : Int) = c := Int.toNat_of_nonneg (le_of_lt hc)
      have hba : (((b - a).toNat : Nat) : Int) = b - a := Int.toNat_of_nonneg (by omega)
      rw [hcc, hba] at h2
      omega
  · intro hfail
    rw [hred]
    by_cases hc0 : c ≤ 0
    · exact ⟨_, by rw [if_pos hc0]⟩
    · rcases hfail with hba | hc0'
      · rw [if_neg hc0]
        exact ⟨_, by rw [if_pos hba]⟩
      · exact absurd hc0' hc0
  · intro hab hc hov
    rw [hred, if_neg (by omega), if_neg (by omega), byList_overflow a b c hc hab hov]

/-- C7 counterexample: on `9223372036854775807/to/9223372036854775807/by/1`
(a = b = i64::MAX, c = 1, so a <= b and c > 0 as the claim requires) the
`cur += by` update overflows i64 and the program has no normal result;
the embedding yields `Error.panicked`, not the `Ok` list the claim asserts. -/
theorem expandNumeric_by_form_counterexample :
    parseInt? "9223372036854775807" = some (2 ^ 63 - 1) ∧
    parseInt? "1" = some 1 ∧ ((2 ^ 63 - 1 : Int) ≤ 2 ^ 63 - 1 ∧ (0 : Int) < 1) ∧
    expandNumericSyntax "9223372036854775807/to/9223372036854775807/by/1" =
      .error .panicked := by decide

/-- Witness for C7 at concrete inputs. -/
theorem expandNumeric_by_form_witness :
    (expandNumericSyntax "5/to/3/by/1").isOk = false := by
  obtain ⟨msg, hmsg⟩ :=
    (expandNumeric_by_form "5/to/3/by/1" "5" "to" "3" "by" "1" 5 3 1 (by decide) (by decide)
      (by decide) (by decide) (by decide) (by decide)).2.1 (Or.inl (by decide))
  rw [hmsg]
  rfl

theorem hasInfix_cons_false {P : List Char} {c : Char} {t : List Char}
    (h : listHasInfix P (c :: t) = false) :
    P.isPrefixOf (c :: t) = false ∧ listHasInfix P t = false := by
  unfold listHasInfix at h
  exact Bool.or_eq_false_iff.mp h

theorem hasInfix_drop_false {P : List Char} (n : Nat) (s : List Char)
    (h : listHasInfix P s = false) : listHasInfix P (s.drop n) = false := by
  induction n generalizing s with
  | zero => simpa using h
  | succ n ih =>
    cases s with
    | nil => simpa using h
    | cons c t =>
      rw [List.drop_succ_cons]
      exact ih t (hasInfix_cons_false h).2

theorem hasInfix_of_prefix {P s : List Char} (h : P <+: s) : listHasInfix P s = true := by
  cases s with
  | nil =>
    rw [List.prefix_nil] at h
    subst h
    rfl
  | cons c t =>
    unfold listHasInfix
    rw [Bool.or_eq_true]
    exact Or.inl (List.isPrefixOf_iff_prefix.mpr h)

theorem repl_p1 : ∀ (fuel : Nat) (r : List Char),
    ['/'] <+: replaceAux ifsPat ifsRep fuel r → ['/'] <+: r := by
  intro fuel r h
  match fuel, r with
  | _, [] => simpa [replaceAux] using h
  | 0, c :: rest => simpa [replaceAux] using h
  | fuel + 1, c :: rest =>
    rw [replaceAux] at h
    split_ifs at h with hm
    · have hp := List.isPrefixOf_iff_prefix.mp hm
      rw [show ifsPat = '/' :: ('i' :: 'f' :: 's' :: '/' :: []) from rfl,
        List.cons_prefix_cons] at hp
      exact List.cons_prefix_cons.mpr ⟨hp.1, List.nil_prefix⟩
    · rw [List.cons_prefix_cons] at h
      exact List.cons_prefix_cons.mpr ⟨h.1, List.nil_prefix⟩

theorem repl_p2 : ∀ (fuel : Nat) (r : List Char),
    ['s', '/'] <+: replaceAux ifsPat ifsRep fuel r → ['s', '/'] <+: r := by
  intro fuel r h
  match fuel, r with
  | _, [] => simpa [replaceAux] using h
  | 0, c :: rest => simpa [replaceAux] using h
  | fuel + 1, c :: rest =>
    rw [replaceAux] at h
    split_ifs at h with hm
    · rw [show ifsRep ++ replaceAux ifsPat ifsRep fuel (List.drop (ifsPat.length - 1) rest) =
        '/' :: replaceAux ifsPat ifsRep fuel (List.drop (ifsPat.length - 1) rest) from rfl,
        List.cons_prefix_cons] at h
      exact absurd h.1 (by decide)
    · rw [List.cons_prefix_cons] at h
      exact List.cons_prefix_cons.mpr ⟨h.1, repl_p1 fuel rest h.2⟩

theorem repl_p3 : ∀ (fuel : Nat) (r : List Char),
    ['f', 's', '/'] <+: replaceAux ifsPat ifsRep fuel r → ['f', 's', '/'] <+: r := by
  intro fuel r h
  match fuel, r with
  | _, [] => simpa [replaceAux] using h
  | 0, c :: rest => simpa [replaceAux] using h
  | fuel + 1, c :: rest =>
    rw [replaceAux] at h
    split_ifs at h with hm
    · rw [show ifsRep ++ replaceAux ifsPat ifsRep fuel (List.drop (ifsPat.length - 1) rest) =
        '/' :: replaceAux ifsPat ifsRep fuel (List.drop (ifsPat.length - 1) rest) from rfl,
        List.cons_prefix_cons] at h
      exact absurd h.1 (by decide)
    · rw [List.cons_prefix_cons] at h
      exact List.cons_prefix_cons.mpr ⟨h.1, repl_p2 fuel rest h.2⟩

theorem repl_p4 : ∀ (fuel : Nat) (r : List Char),
    ['i', 'f', 's', '/'] <+: replaceAux ifsPat ifsRep fuel r → ['i', 'f', 's', '/'] <+: r := by
  intro fuel r h
  match fuel, r with
  | _, [] => simpa [replaceAux] using h
  | 0, c :: rest => simpa [replaceAux] using h
  | fuel + 1, c :: rest =>
    rw [replaceAux] at h
    split_ifs at h with hm
    · rw [show ifsRep ++ replaceAux ifsPat ifsRep fuel (List.drop (ifsPat.length - 1) rest) =
        '/' :: replaceAux ifsPat ifsRep fuel (List.drop (ifsPat.length - 1) rest) from rfl,
        List.cons_prefix_cons] at h
      exact absurd h.1 (by decide)
    · rw [List.cons_prefix_cons] at h
      exact List.cons_prefix_cons.mpr ⟨h.1, repl_p3 fuel rest h.2⟩

theorem replace_no_ifs : ∀ (fuel : Nat) (r : List Char), r.length ≤ fuel →
    listHasInfix ifsAdj r = false →
    listHasInfix ifsPat (replaceAux ifsPat ifsRep fuel r) = false := by
  intro fuel
  induction fuel with
  | zero =>
    intro r hlen _
    have : r = [] := List.length_eq_zero.mp (Nat.le_zero.mp hlen)
    subst this
    rfl
  | succ fuel ih =>
    intro r hlen hadj
    match r with
    | [] => rfl
    | c :: rest =>
      rw [replaceAux]
      split_ifs with hm
      · -- matched: r = ifsPat ++ r', continue at r' = drop 4 rest
        have hp := List.isPrefixOf_iff_prefix.mp hm
        obtain ⟨r', hr'⟩ := hp
        have hdrop : List.drop (ifsPat.length - 1) rest = r' := by
          have : List.drop 5 (c :: rest) = r' := by
            rw [← hr']
            simp [ifsPat]
          simpa [ifsPat] using this
        have hlen' : r'.length ≤ fuel := by
          have h1 : ifsPat.length + r'.length = (c :: rest).length := by
            rw [← List.length_append, hr']
          have h2 : ifsPat.length = 5 := rfl
          have h3 : (c :: rest).length = rest.length + 1 := List.length_cons c rest
          have h4 : (c :: rest).length ≤ fuel + 1 := hlen
          omega
        have hadj' : listHasInfix ifsAdj r' = false := by
          have h5 : List.drop 5 (c :: rest) = r' := by
            rw [← hr']
            simp [ifsPat]
          rw [← h5]
          exact hasInfix_drop_false 5 _ hadj
        have hnoifs : ¬(('i' :: 'f' :: 's' :: '/' :: []) <+: r') := by
          intro hpre
          obtain ⟨t, ht⟩ := hpre
          have : ifsAdj <+: c :: rest := by
            refine ⟨t, ?_⟩
            rw [← hr', ← ht]
            rfl
          have := hasInfix_of_prefix this
          rw [hadj] at this
          exact Bool.noConfusion this
        rw [hdrop]
        have ihr := ih r' hlen' hadj'
        rw [show ifsRep ++ replaceAux ifsPat ifsRep fuel r' =
          '/' :: replaceAux ifsPat ifsRep fuel r' from rfl]
        unfold listHasInfix
        rw [Bool.or_eq_false_iff]
        refine ⟨?_, ihr⟩
        by_contra hpre
        rw [Bool.not_eq_false] at hpre
        have hpp := List.isPrefixOf_iff_prefix.mp hpre
        rw [show ifsPat = '/' :: ('i' :: 'f' :: 's' :: '/' :: []) from rfl,
          List.cons_prefix_cons] at hpp
        exact hnoifs (repl_p4 fuel r' hpp.2)
      · -- not matched: emit c, continue on rest
        have hrest := (hasInfix_cons_false hadj).2
        have ihr := ih rest (by simpa using hlen) hrest
        unfold listHasInfix
        rw [Bool.or_eq_false_iff]
        refine ⟨?_, ihr⟩
        by_contra hpre
        rw [Bool.not_eq_false] at hpre
        have hpp := List.isPrefixOf_iff_prefix.mp hpre
        rw [show ifsPat = '/' :: ('i' :: 'f' :: 's' :: '/' :: []) from rfl,
          List.cons_prefix_cons] at hpp
        have htail := repl_p4 fuel rest hpp.2
        have : ifsPat <+: c :: rest := by
          rw [show ifsPat = '/' :: ('i' :: 'f' :: 's' :: '/' :: []) from rfl,
            List.cons_prefix_cons]
          exact ⟨hpp.1, htail⟩
        rw [← List.isPrefixOf_iff_prefix] at this
        rw [this] at hm
        exact hm rfl

theorem fix0p4Beta_no_ifs (cfg : ClientCfg) (hres : cfg.resol = "0p4-beta") (u : String)
    (hadj : listHasInfix ifsAdj u.data = false) :
    listHasInfix ifsPat (fix0p4Beta cfg u).data = false := by
  unfold fix0p4Beta
  rw [if_pos hres]
  exact replace_no_ifs u.data.length u.data le_rfl hadj

theorem enumTimes_mem (cfg : ClientCfg) (ev : EnumVals) (d : String) :
    ∀ (ts : List String) (us : List String) (ds : List DT),
    enumTimes cfg ev d ts = .ok (us, ds) →
    ∀ u ∈ us, ∃ dt ∈ ds, u ∈ urlsForDT cfg ev dt := by
  intro ts
  induction ts with
  | nil =>
    intro us ds h u hu
    simp only [enumTimes, Except.ok.injEq, Prod.mk.injEq] at h
    obtain ⟨h1, _⟩ := h
    subst h1
    exact absurd hu (List.not_mem_nil u)
  | cons t ts ih =>
    intro us ds h u hu
    unfold enumTimes at h
    simp only [bind, Except.bind, pure, Except.pure] at h
    cases hp : parseNat? t with
    | none =>
      simp only [hp] at h
      exact Except.noConfusion h
    | some hour =>
      simp only [hp] at h
      cases hdt : fullDatetimeFromDateTime d hour with
      | error e =>
        simp only [hdt] at h
        exact Except.noConfusion h
      | ok dt =>
        simp only [hdt] at h
        cases hrest : enumTimes cfg ev d ts with
        | error e =>
          simp only [hrest] at h
          exact Except.noConfusion h
        | ok rest =>
          simp only [hrest, Except.ok.injEq, Prod.mk.injEq] at h
          obtain ⟨h1, h2⟩ := h
          subst h1
          subst h2
          rcases List.mem_append.mp hu with hu1 | hu2
          · exact ⟨dt, List.mem_cons_self _ _, hu1⟩
          · obtain ⟨dt', hdt', hu'⟩ := ih rest.1 rest.2 (by rw [hrest]) u hu2
            exact ⟨dt', List.mem_cons_of_mem _ hdt', hu'⟩

theorem enumDates_mem (cfg : ClientCfg) (ev : EnumVals) :
    ∀ (dl : List String) (us : List String) (ds : List DT),
    enumDates cfg ev dl = .ok (us, ds) →
    ∀ u ∈ us, ∃ dt ∈ ds, u ∈ urlsForDT cfg ev dt := by
  intro dl
  induction dl with
  | nil =>
    intro us ds h u hu
    simp only [enumDates, Except.ok.injEq, Prod.mk.injEq] at h
    obtain ⟨h1, _⟩ := h
    subst h1
    exact absurd hu (List.not_mem_nil u)
  | cons d dl ih =>
    intro us ds h u hu
    unfold enumDates at h
    simp only [bind, Except.bind, pure, Except.pure] at h
    cases ha : enumTimes cfg ev d ev.timeVals with
    | error e =>
      simp only [ha] at h
      exact Except.noConfusion h
    | ok a =>
      simp only [ha] at h
      cases hb : enumDates cfg ev dl with
      | error e =>
        simp only [hb] at h
        exact Except.noConfusion h
      | ok b =>
        simp only [hb, Except.ok.injEq, Prod.mk.injEq] at h
        obtain ⟨h1, h2⟩ := h
        subst h1
        subst h2
        rcases List.mem_append.mp hu with hu1 | hu2
        · obtain ⟨dt, hdt, hu'⟩ := enumTimes_mem cfg ev d ev.timeVals a.1 a.2 (by rw [ha]) u hu1
          exact ⟨dt, List.mem_append_left _ hdt, hu'⟩
        · obtain ⟨dt, hdt, hu'⟩ := ih b.1 b.2 (by rw [hb]) u hu2
          exact ⟨dt, List.mem_append_right _ hdt, hu'⟩

/-- C6: when the configured `resol` is `0p4-beta`, every URL produced by
the URL enumeration has the substring `/ifs/` removed (no occurrence
remains), provided no raw URL contains the self-overlapping pattern
`/ifs/ifs/` (the only shape `str::replace` cannot eliminate). -/
theorem enumUrls_beta_ifs_removed (cfg : ClientCfg) (ev : EnumVals) (us : List String)
    (ds : List DT) (hres : cfg.resol = "0p4-beta")
    (henum : enumAll cfg ev = .ok (us, ds))
    (hadj : ∀ dt ∈ ds, ∀ raw ∈ rawUrlsForDT cfg ev dt, listHasInfix ifsAdj raw.data = false) :
    ∀ u ∈ us, listHasInfix ifsPat u.data = false := by
  intro u hu
  obtain ⟨dt, hdt, hu'⟩ := enumDates_mem cfg ev ev.dateVals us ds henum u hu
  obtain ⟨raw, hraw, rfl⟩ := List.mem_map.mp hu'
  exact fix0p4Beta_no_ifs cfg hres raw (hadj dt hdt raw hraw)

set_option maxRecDepth 10000 in
/-- Witness for C6 on a concrete enumeration. -/
theorem enumUrls_beta_witness :
    listHasInfix ifsPat
      ("https://data.ecmwf.int/forecasts/20240101/00z/0p4-beta/oper/20240101000000-0h-oper-fc.grib2" : String).data = false := by
  have h := enumUrls_beta_ifs_removed
    ⟨"https://data.ecmwf.int/forecasts", "ifs", "0p4-beta", false, false, true, none⟩
    ⟨["20240101"], ["00"], ["ifs"], ["0p4-beta"], ["oper"], ["fc"], ["0"], ["1"]⟩
    ["https://data.ecmwf.int/forecasts/20240101/00z/0p4-beta/oper/20240101000000-0h-oper-fc.grib2"]
    [⟨2024, 1, 1, 0⟩] rfl (by decide) (by decide)
  exact h _ (by decide)

theorem mapGet?_insert_self {β : Type} (k : String) (v : β) (m : List (String × β)) :
    mapGet? (mapInsert k v m) k = some v := by
  induction m with
  | nil => simp [mapInsert, mapGet?]
  | cons e rest ih =>
    obtain ⟨k', v'⟩ := e
    unfold mapInsert
    by_cases h1 : strLtB k k'
    · rw [if_pos h1]
      simp [mapGet?]
    · rw [if_neg h1]
      by_cases h2 : k = k'
      · rw [if_pos h2]
        simp [mapGet?]
      · rw [if_neg h2]
        unfold mapGet?
        rw [List.find?_cons_of_neg _ (by simp [Ne.symm h2])]
        exact ih

theorem mapGet?_insert_other {β : Type} (k k' : String) (v : β) (m : List (String × β))
    (hne : k' ≠ k) : mapGet? (mapInsert k v m) k' = mapGet? m k' := by
  induction m with
  | nil => simp [mapInsert, mapGet?, Ne.symm hne]
  | cons e rest ih =>
    obtain ⟨k0, v0⟩ := e
    unfold mapInsert
    by_cases h1 : strLtB k k0
    · rw [if_pos h1]
      unfold mapGet?
      rw [List.find?_cons_of_neg _ (by simp [Ne.symm hne])]
    · rw [if_neg h1]
      by_cases h2 : k = k0
      · rw [if_pos h2]
        unfold mapGet?
        rw [List.find?_cons_of_neg _ (by simp [Ne.symm hne]),
          List.find?_cons_of_neg _ (by simp [h2 ▸ Ne.symm hne])]
      · rw [if_neg h2]
        by_cases h3 : k0 = k'
        · unfold mapGet?
          rw [List.find?_cons_of_pos _ (by simp [h3]), List.find?_cons_of_pos _ (by simp [h3])]
        · unfold mapGet?
          rw [List.find?_cons_of_neg _ (by simp [h3]), List.find?_cons_of_neg _ (by simp [h3])]
          exact ih

theorem mapContains_iff_get {β : Type} (m : List (String × β)) (k : String) :
    mapContains m k = true ↔ (mapGet? m k).isSome = true := by
  induction m with
  | nil => simp [mapContains, mapGet?]
  | cons e rest ih =>
    obtain ⟨k0, v0⟩ := e
    by_cases h : k0 = k
    · simp [mapContains, mapGet?, List.find?_cons_of_pos, h]
    · unfold mapContains mapGet?
      rw [List.find?_cons_of_neg _ (by simp [h])]
      simp only [List.any_cons]
      rw [show ((k0, v0).1 = k : Bool) = false by simp [h]]
      simpa [mapContains, mapGet?] using ih

theorem upAux_subset (seen xs : List String) (x : String) (h : x ∈ upAux seen xs) : x ∈ xs := by
  induction xs generalizing seen with
  | nil => simpa [upAux] using h
  | cons y ys ih =>
    unfold upAux at h
    by_cases hy : seen.contains y
    · rw [if_pos hy] at h
      exact List.mem_cons_of_mem _ (ih _ h)
    · rw [if_neg hy] at h
      rcases List.mem_cons.mp h with rfl | h'
      · exact List.mem_cons_self _ _
      · exact List.mem_cons_of_mem _ (ih _ h')

theorem uniquePreserve_subset (xs : List String) (x : String) (h : x ∈ uniquePreserve xs) :
    x ∈ xs := upAux_subset [] xs x h

theorem mapGet?_finalizeMap (m : StrMap) (k : String) :
    mapGet? (finalizeMap m) k = (mapGet? m k).map (fun vals =>
      if k = "stream" ∨ k = "type" then (uniquePreserve vals).map lowerStr
      else uniquePreserve vals) := by
  induction m with
  | nil => simp [finalizeMap, mapGet?]
  | cons e rest ih =>
    obtain ⟨k0, vals0⟩ := e
    unfold finalizeMap at ih ⊢
    simp only [List.map_cons]
    by_cases h : k0 = k
    · subst h
      unfold mapGet?
      rw [List.find?_cons_of_pos _ (by simp), List.find?_cons_of_pos _ (by simp)]
      simp
    · unfold mapGet?
      rw [List.find?_cons_of_neg _ (by simp [h]), List.find?_cons_of_neg _ (by simp [h])]
      exact ih

theorem canonTimes_mem (ts out : List String) (h : canonTimes ts = .ok out) :
    ∀ v ∈ out, v ∈ ["00", "06", "12", "18"] := by
  induction ts generalizing out with
  | nil =>
    simp only [canonTimes, Except.ok.injEq] at h
    subst h
    intro v hv
    exact absurd hv (List.not_mem_nil v)
  | cons t ts ih =>
    unfold canonTimes at h
    simp only [bind, Except.bind, pure, Except.pure] at h
    cases hc : canonicalTimeToHour t with
    | error e =>
      simp only [hc] at h
      exact Except.noConfusion h
    | ok hr =>
      simp only [hc] at h
      cases hrest : canonTimes ts with
      | error e =>
        simp only [hrest] at h
        exact Except.noConfusion h
      | ok out' =>
        simp only [hrest, Except.ok.injEq] at h
        subst h
        intro v hv
        rcases List.mem_cons.mp hv with rfl | hv'
        · rcases canonicalTimeToHour_range t hr hc with rfl | rfl | rfl | rfl <;> decide
        · exact ih out' hrest v hv'

theorem canonicalizeTime_time (fu fu2 : StrMap) (h : canonicalizeTime fu = .ok fu2) :
    ∀ v ∈ sgetD fu2 "time", v ∈ ["00", "06", "12", "18"] := by
  unfold canonicalizeTime at h
  cases hg : mapGet? fu "time" with
  | none =>
    simp only [hg, Except.ok.injEq] at h
    subst h
    intro v hv
    unfold sgetD at hv
    rw [hg] at hv
    exact absurd hv (List.not_mem_nil v)
  | some times =>
    simp only [hg, bind, Except.bind, pure, Except.pure] at h
    cases hc : canonTimes times with
    | error e =>
      simp only [hc] at h
      exact Except.noConfusion h
    | ok out =>
      simp only [hc, Except.ok.injEq] at h
      subst h
      intro v hv
      unfold sgetD at hv
      rw [mapGet?_insert_self] at hv
      simp only [Option.getD_some] at hv
      exact canonTimes_mem times out hc v (uniquePreserve_subset out v hv)

theorem normalizeMaps_time (model : String) (nowDate : NDate) (params : Params)
    (fu fi : StrMap) (h : normalizeMaps model nowDate params = .ok (fu, fi)) :
    ∀ v ∈ sgetD fu "time", v ∈ ["00", "06", "12", "18"] := by
  unfold normalizeMaps at h
  simp only [bind, Except.bind, pure, Except.pure] at h
  cases hp : processParams model nowDate params (seedType model params) [] with
  | error e =>
    simp only [hp] at h
    exact Except.noConfusion h
  | ok p =>
    obtain ⟨fu1, fi1⟩ := p
    simp only [hp] at h
    cases hc : canonicalizeTime fu1 with
    | error e =>
      simp only [hc] at h
      exact Except.noConfusion h
    | ok fu2 =>
      simp only [hc, Except.ok.injEq, Prod.mk.injEq] at h
      obtain ⟨h1, _⟩ := h
      subst h1
      by_cases hct : mapContains (finalizeMap fu2) "time"
      · rw [if_pos hct]
        intro v hv
        unfold sgetD at hv
        rw [mapGet?_finalizeMap] at hv
        cases hft : mapGet? fu2 "time" with
        | none =>
          rw [hft] at hv
          exact absurd hv (List.not_mem_nil v)
        | some vals2 =>
          rw [hft] at hv
          simp only [Option.map_some', Option.getD_some] at hv
          rw [if_neg (by decide)] at hv
          have hv2 : v ∈ vals2 := uniquePreserve_subset vals2 v hv
          have := canonicalizeTime_time fu1 fu2 hc v
          apply this
          unfold sgetD
          rw [hft]
          exact hv2
      · rw [if_neg hct]
        intro v hv
        unfold sgetD at hv
        rw [mapGet?_insert_self] at hv
        simp only [Option.getD_some] at hv
        rcases List.mem_singleton.mp hv with rfl
        decide

theorem assemblePlan_forUrls (cfg : ClientCfg) (net : NetEnv) (model : String)
    (params : Params) (useIndex : Bool) (target : Option String) (fu4 fi3 : StrMap)
    (res : ResolvedResult)
    (h : assemblePlan cfg net model params useIndex target fu4 fi3 = .ok res) :
    res.forUrls = fu4 := by
  unfold assemblePlan at h
  simp only [bind, Except.bind, pure, Except.pure] at h
  cases hd : mapGet? fu4 "date" with
  | none =>
    simp only [hd] at h
    exact Except.noConfusion h
  | some dateVals =>
    simp only [hd] at h
    cases ht : mapGet? fu4 "time" with
    | none =>
      simp only [ht] at h
      exact Except.noConfusion h
    | some timeVals =>
      simp only [ht] at h
      cases he : enumAll cfg
          { dateVals := dateVals
            timeVals := timeVals
            modelVals := (mapGet? fu4 "model").getD [model]
            resolVals := (mapGet? fu4 "resol").getD [cfg.resol]
            streamVals := (mapGet? fu4 "stream").getD ["oper"]
            typeVals := (mapGet? fu4 "type").getD ["fc"]
            stepVals := (mapGet? fu4 "step").getD ["0"]
            fcmonthVals := (mapGet? fu4 "fcmonth").getD ["1"] } with
      | error e =>
        simp only [he] at h
        exact Except.noConfusion h
      | ok ud =>
        simp only [he] at h
        cases hm : minDT? ud.2 with
        | none =>
          simp only [hm] at h
          exact Except.noConfusion h
        | some dt =>
          simp only [hm] at h
          split_ifs at h with hidx
          · cases hx : expandUrlsToRanges cfg net (uniquePreserve ud.1) fi3 with
            | error e =>
              simp only [hx] at h
              exact Except.noConfusion h
            | ok urls2 =>
              simp only [hx, Except.ok.injEq] at h
              subst h
              rfl
          · simp only [Except.ok.injEq] at h
            subst h
            rfl

theorem getUrlsCore_time (cfg : ClientCfg) (net : NetEnv) (params0 : Params)
    (useIndex : Bool) (target : Option String) (res : ResolvedResult)
    (h : getUrlsCore cfg net params0 useIndex target = .ok res) :
    ∀ v ∈ sgetD res.forUrls "time", v ∈ ["00", "06", "12", "18"] := by
  unfold getUrlsCore at h
  simp only [bind, Except.bind, pure, Except.pure] at h
  cases hn : normalizeMaps (applyDefaults cfg params0).1 net.now.date (applyDefaults cfg params0).2 with
  | error e =>
    simp only [hn] at h
    exact Except.noConfusion h
  | ok p =>
    obtain ⟨fu4, fi3⟩ := p
    simp only [hn] at h
    have hres := assemblePlan_forUrls cfg net _ _ useIndex target fu4 fi3 res h
    rw [hres]
    exact normalizeMaps_time _ net.now.date _ fu4 fi3 hn

/-- C9: after request normalization, every value in `for_urls["time"]` is
a two-digit hour string in `{00, 06, 12, 18}`, for every request (and
probe/index oracle behavior) that `get_urls` resolution accepts —
including the defaulted paths (`time = 18` and the latest-resolved cycle
hour, which either canonicalize or make resolution fail). -/
theorem getUrls_time_canonical (cfg : ClientCfg) (net : NetEnv) (request : Params)
    (useIndex : Bool) (target : Option String) (res : ResolvedResult)
    (h : getUrls cfg net request useIndex target = .ok res) :
    ∀ v ∈ sgetD res.forUrls "time", v ∈ ["00", "06", "12", "18"] := by
  unfold getUrls at h
  dsimp only at h
  split_ifs at h with hdate
  · exact getUrlsCore_time cfg net _ useIndex target res h
  · simp only [bind, Except.bind, pure, Except.pure] at h
    cases hl : latestInner cfg net (applyDefaults cfg request).2 with
    | error e =>
      simp only [hl] at h
      exact Except.noConfusion h
    | ok latest =>
      simp only [hl] at h
      split_ifs at h with htime
      · exact getUrlsCore_time cfg net _ useIndex target res h
      · exact getUrlsCore_time cfg net _ useIndex target res h

set_option maxRecDepth 10000 in
/-- Witness for C9 on a concrete request whose time is defaulted to 18. -/
theorem getUrls_time_canonical_witness : ("18" : String) ∈ ["00", "06", "12", "18"] :=
  getUrls_time_canonical
    ⟨"https://data.ecmwf.int/forecasts", "ifs", "0p25", false, false, true, none⟩
    ⟨⟨⟨2024, 1, 5⟩, 14, 30, 0⟩, fun _ => .ok true, fun _ => .ok []⟩
    (mapInsert "date" (.str "20240101") []) false none
    ⟨["https://data.ecmwf.int/forecasts/20240101/18z/ifs/0p25/scda/20240101180000-0h-scda-fc.grib2"],
      "data.grib2", ⟨2024, 1, 1, 18⟩,
      [("date", ["20240101"]), ("model", ["ifs"]), ("resol", ["0p25"]), ("step", ["0"]),
        ("stream", ["oper"]), ("time", ["18"]), ("type", ["fc"])],
      [("step", ["0"]), ("type", ["fc"])], 0⟩
    (by decide) "18" (by decide)

end Ecmwf
